import Mathlib

/-!
Verification development for the resilient chunked-summarization pipeline
(`deepseek_summarizer.py`, with the identical segmenter in `claude_summarizer.py`).
Strings are modelled as `List Char`; Python's `json.loads` is modelled by a
fueled recursive-descent parser producing `JsonVal`; dictionaries are
insertion-ordered association lists.
-/

set_option maxRecDepth 16000

namespace PS

/-- Whitespace characters stripped by Python `str.strip` (ASCII range,
which is what the pipeline's inputs use). -/
def isPyWs (c : Char) : Bool :=
  c = ' ' || c = '\t' || c = '\n' || c = '\r' || c = '\x0b' || c = '\x0c'

/-- JSON whitespace accepted by `json.loads` between tokens. -/
def isJWs (c : Char) : Bool :=
  c = ' ' || c = '\t' || c = '\n' || c = '\r'

/-- Drop trailing characters satisfying `p`. -/
def dropTrailing (p : Char → Bool) (l : List Char) : List Char :=
  (l.reverse.dropWhile p).reverse

/-- Python `str.strip()`. -/
def pyStrip (l : List Char) : List Char := dropTrailing isPyWs (l.dropWhile isPyWs)

/-- Both-ends trim of JSON whitespace (what `json.loads` tolerates around the payload). -/
def trimJWs (l : List Char) : List Char := dropTrailing isJWs (l.dropWhile isJWs)

/-- Python slice `text[a:b]` for natural indices. -/
def pySlice (l : List Char) (a b : Nat) : List Char := (l.drop a).take (b - a)

/-- Python `str.find` for a single character: index of first occurrence, if any. -/
def listFind (l : List Char) (c : Char) : Option Nat := l.findIdx? (· = c)

/-- Python `str.rfind` for a single character: index of last occurrence, if any. -/
def listRfind (l : List Char) (c : Char) : Option Nat :=
  match l.reverse.findIdx? (· = c) with
  | some i => some (l.length - 1 - i)
  | none => none

/-- Fueled model of Python `str.replace` (all non-overlapping occurrences,
scanning left to right, never rescanning replacements). -/
def replaceFuel (pat rep : List Char) : Nat → List Char → List Char
  | _, [] => []
  | 0, s => s
  | fuel+1, c :: rest =>
    if pat ≠ [] ∧ pat.isPrefixOf (c :: rest) then
      rep ++ replaceFuel pat rep fuel ((c :: rest).drop pat.length)
    else
      c :: replaceFuel pat rep fuel rest

/-- Python `s.replace(pat, rep)`. -/
def pyReplace (s pat rep : List Char) : List Char := replaceFuel pat rep s.length s

/-- Whether `pat` occurs as a contiguous substring. -/
def containsSub (pat : List Char) : List Char → Bool
  | [] => pat.isPrefixOf ([] : List Char)
  | c :: rest => pat.isPrefixOf (c :: rest) || containsSub pat rest

mutual

/-- Parsed JSON values, the model of Python objects produced by `json.loads`.
Numbers are kept as their source literals (numeric magnitude is never inspected
by the code under verification).  Object keys keep insertion order; a later
duplicate key overwrites the earlier value in place, as CPython dicts do.
Arrays and objects carry their own list types (`JsonArr`, `JsonObj`) so that
structural recursion is available; `toList`/`ofList` convert. -/
inductive JsonVal : Type where
  | null : JsonVal
  | bool (b : Bool) : JsonVal
  | num (lit : List Char) : JsonVal
  | str (s : List Char) : JsonVal
  | arr (elems : JsonArr) : JsonVal
  | obj (kvs : JsonObj) : JsonVal

/-- A list of JSON values (array contents). -/
inductive JsonArr : Type where
  | nil : JsonArr
  | cons (hd : JsonVal) (tl : JsonArr) : JsonArr

/-- An insertion-ordered key/value list (object contents). -/
inductive JsonObj : Type where
  | nil : JsonObj
  | cons (k : List Char) (v : JsonVal) (tl : JsonObj) : JsonObj

end

/-- Convert array contents to an ordinary list. -/
def JsonArr.toList : JsonArr → List JsonVal
  | .nil => []
  | .cons x xs => x :: xs.toList

/-- Build array contents from an ordinary list. -/
def JsonArr.ofList : List JsonVal → JsonArr
  | [] => .nil
  | x :: xs => .cons x (JsonArr.ofList xs)

/-- Convert object contents to an ordinary key/value list. -/
def JsonObj.toList : JsonObj → List (List Char × JsonVal)
  | .nil => []
  | .cons k v xs => (k, v) :: xs.toList

/-- Build object contents from an ordinary key/value list. -/
def JsonObj.ofList : List (List Char × JsonVal) → JsonObj
  | [] => .nil
  | (k, v) :: xs => .cons k v (JsonObj.ofList xs)

@[simp] theorem JsonArr.toList_of_ofList (l : List JsonVal) : (JsonArr.ofList l).toList = l := by
  induction l with
  | nil => rfl
  | cons x xs ih => simp [JsonArr.ofList, JsonArr.toList, ih]

@[simp] theorem JsonObj.objToList_ofList (l : List (List Char × JsonVal)) :
    (JsonObj.ofList l).toList = l := by
  induction l with
  | nil => rfl
  | cons x xs ih =>
    obtain ⟨k, v⟩ := x
    simp [JsonObj.ofList, JsonObj.toList, ih]

mutual

/-- Boolean equality on JSON values. -/
def beqV : JsonVal → JsonVal → Bool
  | .null, .null => true
  | .bool x, .bool y => x == y
  | .num x, .num y => x == y
  | .str x, .str y => x == y
  | .arr xs, .arr ys => beqA xs ys
  | .obj xs, .obj ys => beqO xs ys
  | _, _ => false

/-- Boolean equality on JSON array contents. -/
def beqA : JsonArr → JsonArr → Bool
  | .nil, .nil => true
  | .cons x xs, .cons y ys => beqV x y && beqA xs ys
  | _, _ => false

/-- Boolean equality on JSON object contents. -/
def beqO : JsonObj → JsonObj → Bool
  | .nil, .nil => true
  | .cons k x xs, .cons k' y ys => k == k' && beqV x y && beqO xs ys
  | _, _ => false

end

mutual

theorem beqV_iff : ∀ a b : JsonVal, beqV a b = true ↔ a = b
  | .null, b => by cases b <;> simp [beqV]
  | .bool x, b => by cases b <;> simp [beqV]
  | .num x, b => by cases b <;> simp [beqV]
  | .str x, b => by cases b <;> simp [beqV]
  | .arr xs, b => by
    cases b <;> simp [beqV]
    exact beqA_iff xs _
  | .obj xs, b => by
    cases b <;> simp [beqV]
    exact beqO_iff xs _

theorem beqA_iff : ∀ xs ys : JsonArr, beqA xs ys = true ↔ xs = ys
  | .nil, ys => by cases ys <;> simp [beqA]
  | .cons x xs, ys => by
    cases ys with
    | nil => simp [beqA]
    | cons y ys => simp [beqA, beqV_iff x y, beqA_iff xs ys]

theorem beqO_iff : ∀ xs ys : JsonObj, beqO xs ys = true ↔ xs = ys
  | .nil, ys => by cases ys <;> simp [beqO]
  | .cons k x xs, ys => by
    cases ys with
    | nil => simp [beqO]
    | cons k' y ys => simp [beqO, beqV_iff x y, beqO_iff xs ys, and_assoc]

end

instance : DecidableEq JsonVal := fun a b =>
  decidable_of_iff (beqV a b = true) (beqV_iff a b)

instance : DecidableEq JsonArr := fun a b =>
  decidable_of_iff (beqA a b = true) (beqA_iff a b)

instance : DecidableEq JsonObj := fun a b =>
  decidable_of_iff (beqO a b = true) (beqO_iff a b)

/-- Lookup in an insertion-ordered association list (Python dict read). -/
def assocFind {α β : Type} [DecidableEq α] (kvs : List (α × β)) (k : α) : Option β :=
  match kvs with
  | [] => none
  | (k', v) :: rest => if k' = k then some v else assocFind rest k

/-- Python dict assignment `d[k] = v`: overwrite in place or append at the end. -/
def assocSet {α β : Type} [DecidableEq α] (kvs : List (α × β)) (k : α) (v : β) :
    List (α × β) :=
  match kvs with
  | [] => [(k, v)]
  | (k', v') :: rest => if k' = k then (k, v) :: rest else (k', v') :: assocSet rest k v

/-- Value of a hex digit, if `c` is one. -/
def hexVal (c : Char) : Option Nat :=
  if '0' ≤ c ∧ c ≤ '9' then some (c.toNat - '0'.toNat)
  else if 'a' ≤ c ∧ c ≤ 'f' then some (c.toNat - 'a'.toNat + 10)
  else if 'A' ≤ c ∧ c ≤ 'F' then some (c.toNat - 'A'.toNat + 10)
  else none

/-- ASCII decimal digit test. -/
def isDigitCh (c : Char) : Bool := '0' ≤ c && c ≤ '9'

/-- Body of a JSON string after the opening quote: returns the decoded
content and the rest of the input after the closing quote.  Follows the
strict `json.loads` scanner: the standard escapes plus `\uXXXX`, and raw
control characters are rejected. -/
def parseStrBody : Nat → List Char → Option (List Char × List Char)
  | _, [] => none
  | 0, _ => none
  | fuel+1, c :: rest =>
    if c = '"' then some ([], rest)
    else if c = '\\' then
      match rest with
      | [] => none
      | e :: r2 =>
        if e = 'u' then
          match r2 with
          | h1 :: h2 :: h3 :: h4 :: r3 =>
            match hexVal h1, hexVal h2, hexVal h3, hexVal h4 with
            | some a, some b, some c2, some d =>
              match parseStrBody fuel r3 with
              | some (s, r') => some (Char.ofNat (((a * 16 + b) * 16 + c2) * 16 + d) :: s, r')
              | none => none
            | _, _, _, _ => none
          | _ => none
        else
          match
            (if e = '"' then some '"'
             else if e = '\\' then some '\\'
             else if e = '/' then some '/'
             else if e = 'b' then some '\x08'
             else if e = 'f' then some '\x0c'
             else if e = 'n' then some '\n'
             else if e = 'r' then some '\r'
             else if e = 't' then some '\t'
             else none) with
          | some ch =>
            match parseStrBody fuel r2 with
            | some (s, r') => some (ch :: s, r')
            | none => none
          | none => none
    else if c.toNat < 32 then none
    else
      match parseStrBody fuel rest with
      | some (s, r') => some (c :: s, r')
      | none => none

/-- Length of the JSON number literal at the head of `cs` (0 if there is none),
following the number regex of Python's json scanner:
a sign, `0` or a nonzero-led digit run, an optional fraction, an optional exponent. -/
def numLitLen (cs : List Char) : Nat :=
  let p := match cs with
    | '-' :: r => (1, r)
    | _ => (0, cs)
  let sgn := p.1
  let cs1 := p.2
  let intLen : Nat :=
    match cs1 with
    | '0' :: _ => 1
    | c :: _ => if isDigitCh c then (cs1.takeWhile isDigitCh).length else 0
    | [] => 0
  if intLen = 0 then 0
  else
    let cs2 := cs1.drop intLen
    let fracLen : Nat :=
      match cs2 with
      | '.' :: r => let d := (r.takeWhile isDigitCh).length; if d = 0 then 0 else d + 1
      | _ => 0
    let cs3 := cs2.drop fracLen
    let expLen : Nat :=
      match cs3 with
      | e :: r =>
        if e = 'e' ∨ e = 'E' then
          let q := match r with
            | '+' :: rr => (1, rr)
            | '-' :: rr => (1, rr)
            | _ => (0, r)
          let d := (q.2.takeWhile isDigitCh).length
          if d = 0 then 0 else 1 + q.1 + d
        else 0
      | [] => 0
    sgn + intLen + fracLen + expLen

mutual

/-- Parse one JSON value at the head of the input (no leading whitespace
expected), returning the value and the unconsumed rest. -/
def parseValue : Nat → List Char → Option (JsonVal × List Char)
  | 0, _ => none
  | fuel+1, cs =>
    match cs with
    | [] => none
    | '"' :: rest =>
      match parseStrBody (rest.length + 1) rest with
      | some (s, r) => some (.str s, r)
      | none => none
    | '{' :: rest => parseObjBody fuel rest
    | '[' :: rest => parseArrBody fuel rest
    | _ =>
      if ['t','r','u','e'].isPrefixOf cs then some (.bool true, cs.drop 4)
      else if ['f','a','l','s','e'].isPrefixOf cs then some (.bool false, cs.drop 5)
      else if ['n','u','l','l'].isPrefixOf cs then some (.null, cs.drop 4)
      else if ['N','a','N'].isPrefixOf cs then some (.num ['N','a','N'], cs.drop 3)
      else if ['I','n','f','i','n','i','t','y'].isPrefixOf cs then
        some (.num ['I','n','f','i','n','i','t','y'], cs.drop 8)
      else if ['-','I','n','f','i','n','i','t','y'].isPrefixOf cs then
        some (.num ['-','I','n','f','i','n','i','t','y'], cs.drop 9)
      else
        let n := numLitLen cs
        if n = 0 then none else some (.num (cs.take n), cs.drop n)

/-- Object body after the opening brace. -/
def parseObjBody : Nat → List Char → Option (JsonVal × List Char)
  | 0, _ => none
  | fuel+1, cs =>
    match cs.dropWhile isJWs with
    | '}' :: r => some (.obj .nil, r)
    | cs1 => parseMembers fuel cs1 []

/-- One or more `"key": value` members, separated by commas, ending at `}`. -/
def parseMembers : Nat → List Char → List (List Char × JsonVal) →
    Option (JsonVal × List Char)
  | 0, _, _ => none
  | fuel+1, cs, acc =>
    match cs with
    | '"' :: rest =>
      match parseStrBody (rest.length + 1) rest with
      | some (k, r1) =>
        match r1.dropWhile isJWs with
        | ':' :: r2 =>
          match parseValue fuel (r2.dropWhile isJWs) with
          | some (v, r3) =>
            match r3.dropWhile isJWs with
            | ',' :: r4 => parseMembers fuel ((r4.dropWhile isJWs)) (assocSet acc k v)
            | '}' :: r4 => some (.obj (JsonObj.ofList (assocSet acc k v)), r4)
            | _ => none
          | none => none
        | _ => none
      | none => none
    | _ => none

/-- Array body after the opening bracket. -/
def parseArrBody : Nat → List Char → Option (JsonVal × List Char)
  | 0, _ => none
  | fuel+1, cs =>
    match cs.dropWhile isJWs with
    | ']' :: r => some (.arr .nil, r)
    | cs1 => parseElems fuel cs1 []

/-- One or more array elements, separated by commas, ending at `]`. -/
def parseElems : Nat → List Char → List JsonVal → Option (JsonVal × List Char)
  | 0, _, _ => none
  | fuel+1, cs, acc =>
    match parseValue fuel cs with
    | some (v, r1) =>
      match r1.dropWhile isJWs with
      | ',' :: r2 => parseElems fuel (r2.dropWhile isJWs) (acc ++ [v])
      | ']' :: r2 => some (.arr (JsonArr.ofList (acc ++ [v])), r2)
      | _ => none
    | none => none

end

/-- Model of Python `json.loads`: a single JSON value with only whitespace
around it.  The fuel `2 * length + 4` strictly dominates the number of
recursive steps the scanner can take on the input. -/
def jsonLoads (cs : List Char) : Option JsonVal :=
  let t := trimJWs cs
  match parseValue (2 * t.length + 4) t with
  | some (v, []) => some v
  | _ => none

/-- Python's `\s` class in the repair regexes (ASCII range): the same set
that `str.strip` removes. -/
def isReWs (c : Char) : Bool := isPyWs c

/-- Python's `\w` class (ASCII range). -/
def isWordCh (c : Char) : Bool :=
  ('a' ≤ c && c ≤ 'z') || ('A' ≤ c && c ≤ 'Z') || ('0' ≤ c && c ≤ '9') || c = '_'

/-- A word character or a double quote — the character class of the
broken-string repair. -/
def isWordOrQuote (c : Char) : Bool := isWordCh c || c = '"'

/-- Fueled model of the regex substitution dropping a comma followed by
optional whitespace and a closing brace/bracket (keeping the rest). -/
def subTrailingComma : Nat → List Char → List Char
  | _, [] => []
  | 0, s => s
  | fuel+1, c :: rest =>
    if c = ',' then
      let ws := rest.takeWhile isReWs
      match rest.drop ws.length with
      | b :: r3 =>
        if b = '}' ∨ b = ']' then ws ++ b :: subTrailingComma fuel r3
        else c :: subTrailingComma fuel rest
      | [] => c :: subTrailingComma fuel rest
    else c :: subTrailingComma fuel rest

/-- Fueled model of the regex substitution joining two word/quote characters
separated by whitespace that contains a newline with a single space. -/
def subBrokenStr : Nat → List Char → List Char
  | _, [] => []
  | 0, s => s
  | fuel+1, c :: rest =>
    if isWordOrQuote c then
      let ws := rest.takeWhile isReWs
      if '\n' ∈ ws then
        match rest.drop ws.length with
        | c2 :: r3 =>
          if isWordOrQuote c2 then c :: ' ' :: c2 :: subBrokenStr fuel r3
          else c :: subBrokenStr fuel rest
        | [] => c :: subBrokenStr fuel rest
      else c :: subBrokenStr fuel rest
    else c :: subBrokenStr fuel rest

/-- Fueled model of the regex substitution collapsing two double quotes
separated by whitespace that contains a newline into adjacent quotes. -/
def subSplitQuotes : Nat → List Char → List Char
  | _, [] => []
  | 0, s => s
  | fuel+1, c :: rest =>
    if c = '"' then
      let ws := rest.takeWhile isReWs
      if '\n' ∈ ws then
        match rest.drop ws.length with
        | c2 :: r3 =>
          if c2 = '"' then '"' :: '"' :: subSplitQuotes fuel r3
          else c :: subSplitQuotes fuel rest
        | [] => c :: subSplitQuotes fuel rest
      else c :: subSplitQuotes fuel rest
    else c :: subSplitQuotes fuel rest

/-- Fueled model of the regex substitution wrapping a word run that
immediately precedes a colon in double quotes. -/
def subQuoteKeys : Nat → List Char → List Char
  | _, [] => []
  | 0, s => s
  | fuel+1, c :: rest =>
    if isWordCh c then
      let run := (c :: rest).takeWhile isWordCh
      match (c :: rest).drop run.length with
      | ':' :: r3 => '"' :: (run ++ '"' :: ':' :: subQuoteKeys fuel r3)
      | r2 => run ++ subQuoteKeys fuel r2
    else c :: subQuoteKeys fuel rest

/-- `fix_broken_json` (deepseek_summarizer.py lines 286-306): strip, drop
trailing commas, join broken strings, collapse split quotes, balance braces
and brackets by appending closers, quote bare keys. -/
def fixBrokenJson (s : List Char) : List Char :=
  let t0 := pyStrip s
  let t1 := subTrailingComma t0.length t0
  let t2 := subBrokenStr t1.length t1
  let t3 := subSplitQuotes t2.length t2
  let t4 := if t3.count '{' > t3.count '}' then
      t3 ++ List.replicate (t3.count '{' - t3.count '}') '}' else t3
  let t5 := if t4.count '[' > t4.count ']' then
      t4 ++ List.replicate (t4.count '[' - t4.count ']') ']' else t4
  subQuoteKeys t5.length t5

/-- The fenced-code markers stripped from completions. -/
def fenceJson : List Char := "```json".toList

/-- The bare triple-backtick marker. -/
def fence3 : List Char := "```".toList

/-- The cleanup applied to a completion before the brace search
(summarize_chunk lines 443-444, combine_chunk_summaries lines 636-637):
strip, remove code fences, strip again. -/
def cleanResponse (text : List Char) : List Char :=
  pyStrip (pyReplace (pyReplace (pyStrip text) fenceJson []) fence3 [])

/-- Outcome of the JSON-extraction portion of `summarize_chunk`. -/
inductive ExtractRes : Type where
  | ok (v : JsonVal) : ExtractRes
  | decodeFail : ExtractRes
  | noJson : ExtractRes
deriving DecidableEq

/-- JSON extraction of `summarize_chunk` (lines 443-458): clean the response,
slice from the first `{` to the last `}`, parse, and on parse failure parse
the `fix_broken_json` repair; `decodeFail` models `json.JSONDecodeError`,
`noJson` the `ValueError` when no brace pair exists. -/
def extractJson (text : List Char) : ExtractRes :=
  let t := cleanResponse text
  match listFind t '{', listRfind t '}' with
  | some s_, some e_ =>
    let part := pySlice t s_ (e_ + 1)
    match jsonLoads part with
    | some v => .ok v
    | none =>
      match jsonLoads (fixBrokenJson part) with
      | some v => .ok v
      | none => .decodeFail
  | _, _ => .noJson

/-- Decimal rendering of a natural number, as Python `str(int)`. -/
def natLit (n : Nat) : List Char := (toString n).toList

/-- Lookup a key among a JSON object's fields. -/
def objFind (kvs : JsonObj) (k : List Char) : Option JsonVal := assocFind kvs.toList k

/-- Field lookup on any JSON value (`none` when not an object). -/
def jGet (v : JsonVal) (k : List Char) : Option JsonVal :=
  match v with
  | .obj kvs => objFind kvs k
  | _ => none

/-- Success-path postprocessing of `summarize_chunk` (lines 460-466) sets
`chunk_number`, then defaults `political_undercurrents` to the empty string
and `fact_check_flags` to the empty list, each only when the field is absent;
no other field is back-filled.  `ppPu` is the `political_undercurrents`
backfill (lines 463-464). -/
def ppPu (m : List (List Char × JsonVal)) : List (List Char × JsonVal) :=
  if (assocFind m ("political_undercurrents".toList)).isNone then
    assocSet m ("political_undercurrents".toList) (.str [])
  else m

/-- Backfill of `fact_check_flags` when absent (lines 465-466). -/
def ppFcf (m : List (List Char × JsonVal)) : List (List Char × JsonVal) :=
  if (assocFind m ("fact_check_flags".toList)).isNone then
    assocSet m ("fact_check_flags".toList) (.arr .nil)
  else m

/-- Combined postprocessing: set `chunk_number`, backfill the two fields. -/
def postprocessAnalysis (n : Nat) (kvs : JsonObj) : JsonVal :=
  .obj (JsonObj.ofList
    (ppFcf (ppPu (assocSet kvs.toList ("chunk_number".toList) (.num (natLit n))))))

/-- The fallback returned when JSON decoding fails on the final attempt
(summarize_chunk lines 477-489); note the one-element placeholder topic and
the absence of an `error` field. -/
def placeholderRecord (n : Nat) : JsonVal :=
  .obj (JsonObj.ofList
    [ ("chunk_number".toList, .num (natLit n)),
      ("chunk_summary".toList, .str
        (("Chunk " ++ toString n ++
          " processing failed but contained parliamentary discussion").toList)),
      ("topics".toList, .arr (JsonArr.ofList
        [ .obj (JsonObj.ofList
            [ ("topic".toList, .str ("Parliamentary Discussion".toList)),
              ("description".toList, .str
                ("Content could not be fully processed due to formatting issues".toList)),
              ("party_positions".toList, .arr .nil) ]) ])),
      ("key_decisions".toList, .arr .nil),
      ("notable_exchanges".toList, .arr .nil),
      ("fact_check_flags".toList, .arr .nil) ])

/-- The minimal record returned when the attempt loop ends without success
(summarize_chunk lines 499-507); no `error` field either. -/
def minimalRecord (n : Nat) : JsonVal :=
  .obj (JsonObj.ofList
    [ ("chunk_number".toList, .num (natLit n)),
      ("chunk_summary".toList, .str
        (("Chunk " ++ toString n ++ " could not be processed").toList)),
      ("topics".toList, .arr .nil),
      ("key_decisions".toList, .arr .nil),
      ("notable_exchanges".toList, .arr .nil),
      ("political_undercurrents".toList, .str []),
      ("fact_check_flags".toList, .arr .nil) ])

/-- Python exception values relevant to the pipeline; message text is
schematic, as the code never branches on it. -/
inductive PyErr : Type where
  | requestErr (msg : List Char) : PyErr
  | httpErr (status : Nat) : PyErr
  | keyErr (k : List Char) : PyErr
  | typeErr : PyErr
  | attributeErr : PyErr
  | indexErr : PyErr
  | valueErr (msg : List Char) : PyErr
  | decodeErr : PyErr
deriving DecidableEq

/-- Classified outcome of one attempt of `summarize_chunk`'s loop, as a
function of the result of its `make_api_request` call: success lands on the
postprocessing path, `json.JSONDecodeError` on the placeholder path, and any
other exception (a raised request, an empty response, an absent brace pair, a
non-dict payload) on the generic `except Exception` path. -/
inductive AttemptRes : Type where
  | success (kvs : JsonObj) : AttemptRes
  | decodeFail : AttemptRes
  | otherFail : AttemptRes
deriving DecidableEq

/-- Classify one attempt (summarize_chunk lines 436-496). -/
def analyzeAttempt : Except PyErr (List Char) → AttemptRes
  | .error _ => .otherFail
  | .ok text =>
    if text = [] then .otherFail
    else
      match extractJson text with
      | .ok (.obj kvs) => .success kvs
      | .ok _ => .otherFail
      | .decodeFail => .decodeFail
      | .noJson => .otherFail

/-- The attempt loop of `summarize_chunk` (lines 435-507): `api a` is the
result of the `make_api_request` call on attempt `a` (`.error` when it
raised).  Exhausted fuel corresponds to the loop ending, which returns the
minimal record. -/
def summarizeLoop (n : Nat) (api : Nat → Except PyErr (List Char)) (maxRetries : Nat) :
    Nat → Nat → JsonVal
  | _, 0 => minimalRecord n
  | attempt, fuel+1 =>
    match analyzeAttempt (api attempt) with
    | .success kvs => postprocessAnalysis n kvs
    | .decodeFail =>
      if attempt < maxRetries then summarizeLoop n api maxRetries (attempt+1) fuel
      else placeholderRecord n
    | .otherFail =>
      if attempt < maxRetries then summarizeLoop n api maxRetries (attempt+1) fuel
      else minimalRecord n

/-- `summarize_chunk` for chunk number `n`: a total function — every exception
path returns a record.  The prompt text does not influence the modelled
output, which depends only on the completion results `api`; a non-string
completion content would raise on `.strip()` and land in the same
`except Exception` branch as a raised request, so `api` yields text or an
exception. -/
def summarizeChunk (n : Nat) (api : Nat → Except PyErr (List Char))
    (maxRetries : Nat) : JsonVal :=
  summarizeLoop n api maxRetries 0 (maxRetries + 1)

/-- The transport's behavior on one attempt of `make_api_request`: an HTTP
response (status plus parsed JSON body) or a raised transport error. -/
inductive HttpOutcome : Type where
  | resp (status : Nat) (body : JsonVal) : HttpOutcome
  | netFail (msg : List Char) : HttpOutcome

/-- Python `obj[key]` item access. -/
def pyGetItemKey (v : JsonVal) (k : List Char) : Except PyErr JsonVal :=
  match v with
  | .obj kvs =>
    match objFind kvs k with
    | some x => .ok x
    | none => .error (.keyErr k)
  | _ => .error .typeErr

/-- Python `obj[i]` integer index access (only index 0 is needed). -/
def pyGetIndex (v : JsonVal) (i : Nat) : Except PyErr JsonVal :=
  match v with
  | .arr xs =>
    match xs.toList.get? i with
    | some x => .ok x
    | none => .error .indexErr
  | _ => .error .typeErr

/-- The body-shape extraction `result['choices'][0]['message']['content']`
(line 95); its failures are not `RequestException`s and propagate unretried. -/
def extractContent (body : JsonVal) : Except PyErr JsonVal := do
  let c ← pyGetItemKey body ("choices".toList)
  let c0 ← pyGetIndex c 0
  let m ← pyGetItemKey c0 ("message".toList)
  pyGetItemKey m ("content".toList)

instance {ε α : Type} [DecidableEq ε] [DecidableEq α] : DecidableEq (Except ε α) :=
  fun a b =>
    match a, b with
    | .error e, .error e' => decidable_of_iff (e = e') (by simp)
    | .ok x, .ok y => decidable_of_iff (x = y) (by simp)
    | .error _, .ok _ => isFalse (by simp)
    | .ok _, .error _ => isFalse (by simp)

/-- Observable trace of one `make_api_request` call: attempts performed,
backoff sleeps between failed attempts, and the final result. -/
structure ApiTrace : Type where
  attempts : Nat
  sleeps : List Nat
  result : Except PyErr JsonVal
deriving DecidableEq

/-- The attempt loop of `make_api_request` (lines 84-104): any
`requests.exceptions.RequestException` — including the `HTTPError` that
`raise_for_status` raises for every 4xx/5xx status — is retried after a
`2 ** attempt` sleep; other exceptions propagate immediately. -/
def apiLoop (transport : Nat → HttpOutcome) (maxRetries : Nat) : Nat → Nat → ApiTrace
  | _, 0 => ⟨0, [], .error (.valueErr ("range exhausted".toList))⟩
  | attempt, fuel+1 =>
    match transport attempt with
    | .netFail msg =>
      if attempt < maxRetries then
        ⟨(apiLoop transport maxRetries (attempt+1) fuel).attempts + 1,
         2 ^ attempt :: (apiLoop transport maxRetries (attempt+1) fuel).sleeps,
         (apiLoop transport maxRetries (attempt+1) fuel).result⟩
      else ⟨1, [], .error (.requestErr msg)⟩
    | .resp status body =>
      if 400 ≤ status ∧ status < 600 then
        if attempt < maxRetries then
          ⟨(apiLoop transport maxRetries (attempt+1) fuel).attempts + 1,
           2 ^ attempt :: (apiLoop transport maxRetries (attempt+1) fuel).sleeps,
           (apiLoop transport maxRetries (attempt+1) fuel).result⟩
        else ⟨1, [], .error (.httpErr status)⟩
      else
        match extractContent body with
        | .ok c => ⟨1, [], .ok c⟩
        | .error e => ⟨1, [], .error e⟩

/-- `make_api_request` with a given transport and `max_retries`. -/
def makeApiRequest (transport : Nat → HttpOutcome) (maxRetries : Nat) : ApiTrace :=
  apiLoop transport maxRetries 0 (maxRetries + 1)

/-- Truthiness of a number literal: Python `bool` of a number is `False`
exactly on zero; a literal denotes zero when its pre-exponent digits are all
`0` (`NaN`/`Infinity` carry no digits there and are truthy). -/
def numLitTruthy (lit : List Char) : Bool :=
  let m := lit.takeWhile (fun c => c ≠ 'e' && c ≠ 'E')
  if m.any isDigitCh then m.any (fun c => isDigitCh c && c ≠ '0') else true

/-- Python truthiness of a JSON-shaped value. -/
def jsonTruthy : JsonVal → Bool
  | .null => false
  | .bool b => b
  | .num lit => numLitTruthy lit
  | .str s => !s.isEmpty
  | .arr xs => !xs.toList.isEmpty
  | .obj kvs => !kvs.toList.isEmpty

/-- Python `needle in container` for the receivers the merge pass can meet:
key membership on dicts, element membership on lists, substring test on
strings; other receivers raise `TypeError`. -/
def pyContains (container needle : JsonVal) : Except PyErr Bool :=
  match container with
  | .obj kvs =>
    match needle with
    | .str s => .ok (kvs.toList.any (fun kv => kv.1 == s))
    | _ => .ok false
  | .arr xs => .ok (xs.toList.any (fun x => x == needle))
  | .str s =>
    match needle with
    | .str t => .ok (containsSub t s)
    | _ => .error .typeErr
  | _ => .error .typeErr

/-- Python `d.get(k, default)`: requires a dict receiver. -/
def pyGet (v : JsonVal) (k : List Char) (d : JsonVal) : Except PyErr JsonVal :=
  match v with
  | .obj kvs => .ok ((objFind kvs k).getD d)
  | _ => .error .attributeErr

/-- Python iteration (`for x in v`, `list.extend(v)`): lists yield elements,
strings yield one-character strings, dicts yield keys; other values raise
`TypeError`. -/
def pyIter (v : JsonVal) : Except PyErr (List JsonVal) :=
  match v with
  | .arr xs => .ok xs.toList
  | .str s => .ok (s.map (fun c => .str [c]))
  | .obj kvs => .ok (kvs.toList.map (fun kv => .str kv.1))
  | _ => .error .typeErr

/-- Update the value at key `k` in place (no change when absent). -/
def assocUpdate {α β : Type} [DecidableEq α] (kvs : List (α × β)) (k : α) (f : β → β) :
    List (α × β) :=
  match kvs with
  | [] => []
  | (k', v) :: rest => if k' = k then (k', f v) :: rest else (k', v) :: assocUpdate rest k f

/-- The running merged-topic dict value built by the merge pass
(combine_chunk_summaries lines 526-545); the key (the topic name value) is
held in the surrounding association list. -/
structure MergedTopic : Type where
  description : JsonVal
  party_positions : List JsonVal
  mentioned_in_chunks : List JsonVal
  tensions : List JsonVal
  consensus : List JsonVal
deriving DecidableEq

/-- State of the deterministic merge pass. -/
structure MergeResult : Type where
  allTopics : List (JsonVal × MergedTopic)
  allDecisions : List JsonVal
  allExchanges : List JsonVal
  politicalThemes : List JsonVal
  allFactChecks : List JsonVal
deriving DecidableEq

/-- Merge one topic record of one chunk summary into the running topic dict
(combine_chunk_summaries lines 523-545): the first occurrence of a name
creates the entry and fixes `description`; every occurrence extends
`party_positions`, appends the summary's `chunk_number`, and appends
`tensions`/`consensus` when present. -/
def mergeTopicStep (cs : JsonVal) (st : List (JsonVal × MergedTopic)) (ti : JsonVal) :
    Except PyErr (List (JsonVal × MergedTopic)) := do
  let name ← pyGetItemKey ti ("topic".toList)
  let st1 ←
    if (assocFind st name).isNone then do
      let d ← pyGetItemKey ti ("description".toList)
      pure (st ++ [(name, ⟨d, [], [], [], []⟩)])
    else pure st
  let pp ← pyGet ti ("party_positions".toList) (.arr .nil)
  let ppItems ← pyIter pp
  let cn ← pyGetItemKey cs ("chunk_number".toList)
  let hasT ← pyContains ti (.str ("tensions".toList))
  let tv ← if hasT then do
      let t ← pyGetItemKey ti ("tensions".toList)
      pure [t]
    else pure []
  let hasC ← pyContains ti (.str ("consensus".toList))
  let cv ← if hasC then do
      let c ← pyGetItemKey ti ("consensus".toList)
      pure [c]
    else pure []
  pure (assocUpdate st1 name (fun mt =>
    { mt with
      party_positions := mt.party_positions ++ ppItems,
      mentioned_in_chunks := mt.mentioned_in_chunks ++ [cn],
      tensions := mt.tensions ++ tv,
      consensus := mt.consensus ++ cv }))

/-- The confidence filter applied to one fact-check flag
(combine_chunk_summaries lines 554-556): keep it only when `confidence` is
`MEDIUM` or `HIGH` (default `LOW`). -/
def fcStep (acc : List JsonVal) (f : JsonVal) : Except PyErr (List JsonVal) := do
  let conf ← pyGet f ("confidence".toList) (.str ("LOW".toList))
  pure (if conf = JsonVal.str ("MEDIUM".toList) ∨ conf = JsonVal.str ("HIGH".toList)
        then acc ++ [f] else acc)

/-- Process one chunk summary in the merge pass
(combine_chunk_summaries lines 521-556). -/
def mergeSummaryStep (st : MergeResult) (cs : JsonVal) : Except PyErr MergeResult := do
  let hasTopics ← pyContains cs (.str ("topics".toList))
  let topics' ←
    if hasTopics then do
      let ts ← pyGetItemKey cs ("topics".toList)
      let items ← pyIter ts
      items.foldlM (mergeTopicStep cs) st.allTopics
    else pure st.allTopics
  let kd ← pyGet cs ("key_decisions".toList) (.arr .nil)
  let kdItems ← pyIter kd
  let ne ← pyGet cs ("notable_exchanges".toList) (.arr .nil)
  let neItems ← pyIter ne
  let pu ← pyGet cs ("political_undercurrents".toList) .null
  let themes' := if jsonTruthy pu then st.politicalThemes ++ [pu] else st.politicalThemes
  let fc ← pyGet cs ("fact_check_flags".toList) (.arr .nil)
  let fcItems ← pyIter fc
  let fcs' ← fcItems.foldlM fcStep st.allFactChecks
  pure { allTopics := topics',
         allDecisions := st.allDecisions ++ kdItems,
         allExchanges := st.allExchanges ++ neItems,
         politicalThemes := themes',
         allFactChecks := fcs' }

/-- The deterministic merge pass of `combine_chunk_summaries`
(lines 514-556): a fold over the chunk summaries in input order. -/
def mergePass (summaries : List JsonVal) : Except PyErr MergeResult :=
  summaries.foldlM mergeSummaryStep ⟨[], [], [], [], []⟩

/-- Rendered message of a Python exception: schematic where the real text is
library-generated; the pipeline never branches on these strings. -/
def pyErrMsg : PyErr → List Char
  | .requestErr m => m
  | .httpErr s => ("HTTP error ".toList) ++ natLit s
  | .keyErr k => k
  | .typeErr => "type error".toList
  | .attributeErr => "attribute error".toList
  | .indexErr => "index error".toList
  | .valueErr m => m
  | .decodeErr => "JSON decode error".toList

/-- The degraded record returned by the `except` clause of
`combine_chunk_summaries` (lines 664-671): error text, meeting info, the raw
inputs, the filtered flags.  `processing_info`, `executive_summary` and
`main_topics` are absent. -/
def combineErrorRecord (e : PyErr) (summaries : List JsonVal) (meetingInfo : JsonVal)
    (m : MergeResult) : JsonVal :=
  .obj (JsonObj.ofList
    [ ("error".toList, .str (pyErrMsg e)),
      ("meeting_info".toList, meetingInfo),
      ("raw_chunk_summaries".toList, .arr (JsonArr.ofList summaries)),
      ("raw_fact_checks".toList, .arr (JsonArr.ofList m.allFactChecks)) ])

/-- Parse of the synthesis completion (lines 636-646): clean, slice the brace
span, `json.loads` once — no repair ladder here; a missing brace pair is the
`ValueError`, a failed parse the decode error. -/
def parseSynthesis (text : List Char) : Except PyErr JsonVal :=
  let t := cleanResponse text
  match listFind t '{', listRfind t '}' with
  | some s_, some e_ =>
    match jsonLoads (pySlice t s_ (e_ + 1)) with
    | some v => .ok v
    | none => .error .decodeErr
  | _, _ => .error (.valueErr ("No JSON found in final summary".toList))

/-- The synthesis try-block of `combine_chunk_summaries` (lines 633-671):
on success the metadata fields are attached to the parsed summary; every
exception yields the degraded error record. -/
def synthesisStep (summaries : List JsonVal) (meetingInfo : JsonVal) (m : MergeResult)
    (synthApi : Except PyErr JsonVal) (now : List Char) : JsonVal :=
  match synthApi with
  | .error e => combineErrorRecord e summaries meetingInfo m
  | .ok content =>
    match content with
    | .str text =>
      match parseSynthesis text with
      | .error e => combineErrorRecord e summaries meetingInfo m
      | .ok fs =>
        match fs with
        | .obj kvs =>
          let m1 := assocSet kvs.toList ("meeting_info".toList) meetingInfo
          let m2 := assocSet m1 ("processing_info".toList) (.obj (JsonObj.ofList
            [ ("chunks_processed".toList, .num (natLit summaries.length)),
              ("total_topics_found".toList, .num (natLit m.allTopics.length)),
              ("total_fact_checks".toList, .num (natLit m.allFactChecks.length)),
              ("processing_date".toList, .str now),
              ("ai_model".toList, .str ("deepseek-reasoner".toList)),
              ("fact_checking_enabled".toList, .bool true) ]))
          let m3 := assocSet m2 ("raw_fact_checks".toList)
            (.arr (JsonArr.ofList m.allFactChecks))
          .obj (JsonObj.ofList m3)
        | _ => combineErrorRecord .typeErr summaries meetingInfo m
    | _ => combineErrorRecord .attributeErr summaries meetingInfo m

/-- `combine_chunk_summaries` (lines 509-671): the deterministic merge pass
(whose exceptions propagate — it sits outside the try block) followed by the
synthesis step.  `synthApi` is the result of the synthesis
`make_api_request` call and `now` the formatted timestamp. -/
def combineChunkSummaries (summaries : List JsonVal) (meetingInfo : JsonVal)
    (synthApi : Except PyErr JsonVal) (now : List Char) : Except PyErr JsonVal := do
  let m ← mergePass summaries
  pure (synthesisStep summaries meetingInfo m synthApi now)

/-- `ChunkInfo` (deepseek_summarizer.py lines 13-20). -/
structure ChunkInfo : Type where
  chunk_number : Nat
  start_pos : Nat
  end_pos : Nat
  text : List Char
  topics_mentioned : Option (List (List Char))
deriving DecidableEq

/-- ASCII upper-case test, the `[A-Z]` class. -/
def azUpper (c : Char) : Bool := 'A' ≤ c && c ≤ 'Z'

/-- ASCII lower-case test, the `[a-z]` class. -/
def azLower (c : Char) : Bool := 'a' ≤ c && c ≤ 'z'

/-- Lookahead of the new-speaker pattern: `De heer`, `Mevrouw` or `Minister`. -/
def laSpeaker (rest : List Char) : Bool :=
  ("De heer".toList).isPrefixOf rest || ("Mevrouw".toList).isPrefixOf rest ||
    ("Minister".toList).isPrefixOf rest

/-- Lookahead of the agenda-item pattern. -/
def laAgenda (rest : List Char) : Bool :=
  ("Agendapunt".toList).isPrefixOf rest || ("AGENDAPUNT".toList).isPrefixOf rest

/-- Lookahead of the chairman pattern. -/
def laChair (rest : List Char) : Bool := ("Voorzitter:".toList).isPrefixOf rest

/-- Lookahead of the generic speaker pattern `[A-Z][a-z]+ [A-Z][a-z]+:`. -/
def laGeneric (rest : List Char) : Bool :=
  match rest with
  | c :: t =>
    azUpper c &&
      (let r1 := t.takeWhile azLower
       !r1.isEmpty &&
         (match t.drop r1.length with
          | ' ' :: c2 :: t2 =>
            azUpper c2 &&
              (let r2 := t2.takeWhile azLower
               !r2.isEmpty && ((t2.drop r2.length).head? == some ':'))
          | _ => false))
  | [] => false

/-- Does one of the discourse-boundary regexes match at this suffix?  Each is
a double newline followed by a zero-width lookahead. -/
def boundaryAt (la : List Char → Bool) : List Char → Bool
  | '\n' :: '\n' :: rest => la rest
  | _ => false

/-- Match start positions of `re.finditer` for a length-2 match: scan left to
right, skipping past each match. -/
def scanStarts (m : List Char → Bool) : Nat → List Char → List Nat
  | _, [] => []
  | i, c :: rest =>
    if m (c :: rest) then
      i :: (match rest with
            | _ :: r2 => scanStarts m (i+2) r2
            | [] => [])
    else scanStarts m (i+1) rest

/-- All candidate break positions inside the search window, in the pattern
order of the source (lines 214-219, 240-244). -/
def breakCandidates (s : List Char) : List Nat :=
  scanStarts (boundaryAt laSpeaker) 0 s ++ scanStarts (boundaryAt laAgenda) 0 s ++
    scanStarts (boundaryAt laChair) 0 s ++ scanStarts (boundaryAt laGeneric) 0 s

/-- Distance on naturals. -/
def natDist (a b : Nat) : Nat := max a b - min a b

/-- One step of the best-break fold (lines 243-247): accept a candidate only
inside `[current_pos + 5000, target_end + 500]`, keeping the strictly closer
position to the target (ties keep the earlier-seen candidate). -/
def bestBreakStep (cur target searchStart : Nat) : Option Nat → Nat → Option Nat
  | none, p =>
    if cur + 5000 ≤ searchStart + p ∧ searchStart + p ≤ target + 500 then
      some (searchStart + p)
    else none
  | some b, p =>
    if cur + 5000 ≤ searchStart + p ∧ searchStart + p ≤ target + 500 then
      (if natDist (searchStart + p) target < natDist b target then some (searchStart + p)
       else some b)
    else some b

/-- The best break found in the search window, if any (lines 234-247). -/
def bestBreak (text : List Char) (cur target searchStart : Nat) : Option Nat :=
  (breakCandidates (pySlice text searchStart (target + 1000))).foldl
    (bestBreakStep cur target searchStart) none

/-- Resolution of `if best_break: chunk_end = best_break` (lines 249-250): a
found break is used unless it is 0 (falsy in Python); otherwise the
arithmetic target stands. -/
def breakOrTarget (target : Nat) : Option Nat → Nat
  | some b => if b = 0 then target else b
  | none => target

/-- The chunk-end computation of one iteration of `chunk_text_smartly`
(lines 224-250): near the end of the text take everything; otherwise prefer
the boundary match closest to the target within the acceptance range,
falling back to the arithmetic target. -/
def chunkEnd (text : List Char) (cur : Nat) : Nat :=
  if text.length - 1000 ≤ min (cur + 50000) text.length then text.length
  else
    breakOrTarget (min (cur + 50000) text.length)
      (bestBreak text cur (min (cur + 50000) text.length)
        (max (min (cur + 50000) text.length - 2000) cur))

/-- The emission loop of `chunk_text_smartly` (lines 221-265): walk the text,
emit the stripped slice when non-empty (incrementing the number), always
advance the cursor to the chunk end.  Fuel `length + 1` always suffices. -/
def chunkLoop (text : List Char) : Nat → Nat → Nat → Option (List ChunkInfo)
  | 0, _, _ => none
  | fuel+1, cur, num =>
    if cur < text.length then
      let ce := chunkEnd text cur
      let ctext := pyStrip (pySlice text cur ce)
      if ctext.isEmpty then chunkLoop text fuel ce num
      else
        match chunkLoop text fuel ce (num+1) with
        | some rest => some (⟨num, cur, ce, ctext, none⟩ :: rest)
        | none => none
    else some []

/-- `chunk_text_smartly` (deepseek_summarizer.py lines 201-271; the identical
function is claude_summarizer.py lines 81-153), with the fixed
`max_chunk_size = 50000` both classes set. -/
def chunkTextSmartly (text : List Char) : List ChunkInfo :=
  (chunkLoop text (text.length + 1) 0 1).getD []

/-- Decidable test that an attempt did not land on the success path. -/
def attemptFailed (r : Except PyErr (List Char)) : Bool :=
  match analyzeAttempt r with
  | .success _ => false
  | _ => true

/-- Decidable test that the synthesis step fails: the completion call raised,
or its content is not a string, or the brace-span parse does not produce an
object. -/
def synthFails (sa : Except PyErr JsonVal) : Bool :=
  match sa with
  | .error _ => true
  | .ok (.str t) =>
    match parseSynthesis t with
    | .error _ => true
    | .ok (.obj _) => false
    | .ok _ => true
  | .ok _ => true

/-- Topic name of a topic record (statement vocabulary for C7). -/
def tiName (ti : JsonVal) : JsonVal := (jGet ti ("topic".toList)).getD .null

/-- Description of a topic record. -/
def tiDesc (ti : JsonVal) : JsonVal := (jGet ti ("description".toList)).getD .null

/-- Party positions of a topic record (empty when absent). -/
def tiPositions (ti : JsonVal) : List JsonVal :=
  match jGet ti ("party_positions".toList) with
  | some (.arr ps) => ps.toList
  | _ => []

/-- The appended tensions contribution of a topic record. -/
def tiTensions (ti : JsonVal) : List JsonVal :=
  match jGet ti ("tensions".toList) with
  | some v => [v]
  | none => []

/-- The appended consensus contribution of a topic record. -/
def tiConsensus (ti : JsonVal) : List JsonVal :=
  match jGet ti ("consensus".toList) with
  | some v => [v]
  | none => []

/-- The topic records of a chunk summary (empty when absent). -/
def sTopics (s : JsonVal) : List JsonVal :=
  match jGet s ("topics".toList) with
  | some (.arr ts) => ts.toList
  | _ => []

/-- The chunk number value of a chunk summary. -/
def sChunkNum (s : JsonVal) : JsonVal := (jGet s ("chunk_number".toList)).getD .null

/-- All (chunk number, topic record) pairs of a summary list, in order. -/
def topicOccurrences (summaries : List JsonVal) : List (JsonVal × JsonVal) :=
  summaries.flatMap (fun s => (sTopics s).map (fun ti => (sChunkNum s, ti)))

/-- Pure description of one `mergeTopicStep` on well-formed input: create the
entry on first occurrence (fixing the description), then extend the running
entry's lists. -/
def addTopic (st : List (JsonVal × MergedTopic)) (oc : JsonVal × JsonVal) :
    List (JsonVal × MergedTopic) :=
  assocUpdate
    (if (assocFind st (tiName oc.2)).isNone then
       st ++ [(tiName oc.2, ⟨tiDesc oc.2, [], [], [], []⟩)]
     else st)
    (tiName oc.2)
    (fun mt => ⟨mt.description, mt.party_positions ++ tiPositions oc.2,
      mt.mentioned_in_chunks ++ [oc.1], mt.tensions ++ tiTensions oc.2,
      mt.consensus ++ tiConsensus oc.2⟩)

/-- Well-formedness of a topic record: a dict with `topic` and `description`
keys and, when present, a list `party_positions`. -/
def wfTopic (ti : JsonVal) : Bool :=
  (jGet ti ("topic".toList)).isSome &&
  (jGet ti ("description".toList)).isSome &&
  (match jGet ti ("party_positions".toList) with
   | some (.arr _) => true
   | none => true
   | some _ => false)

/-- Well-formedness of a chunk summary for the merge pass: a dict carrying
`chunk_number`, whose `topics` (when present) is a list of well-formed topic
records, whose `key_decisions`/`notable_exchanges` (when present) are lists,
and whose `fact_check_flags` (when present) is a list of dicts. -/
def wfSummary (s : JsonVal) : Bool :=
  (jGet s ("chunk_number".toList)).isSome &&
  (match jGet s ("topics".toList) with
   | some (.arr ts) => ts.toList.all wfTopic
   | none => true
   | some _ => false) &&
  (match jGet s ("key_decisions".toList) with
   | some (.arr _) => true
   | none => true
   | some _ => false) &&
  (match jGet s ("notable_exchanges".toList) with
   | some (.arr _) => true
   | none => true
   | some _ => false) &&
  (match jGet s ("fact_check_flags".toList) with
   | some (.arr fs) => fs.toList.all (fun f => match f with | .obj _ => true | _ => false)
   | none => true
   | some _ => false)

/-- The per-occurrence extension of a running merged topic
(combine_chunk_summaries lines 536-545, statement vocabulary for C7). -/
def extendTopic (mt : MergedTopic) (oc : JsonVal × JsonVal) : MergedTopic :=
  ⟨mt.description, mt.party_positions ++ tiPositions oc.2,
   mt.mentioned_in_chunks ++ [oc.1], mt.tensions ++ tiTensions oc.2,
   mt.consensus ++ tiConsensus oc.2⟩

/-- The merged topic created by the first occurrence of a name
(combine_chunk_summaries lines 528-534 followed by 536-545). -/
def newTopic (oc : JsonVal × JsonVal) : MergedTopic :=
  ⟨tiDesc oc.2, tiPositions oc.2, [oc.1], tiTensions oc.2, tiConsensus oc.2⟩

/-- A concrete chunk-summary pair exercising the C7 merge: the same topic
name in two chunks with different descriptions. -/
def wTopicA : JsonVal :=
  .obj (JsonObj.ofList [("topic".toList, .str ("Budget".toList)),
    ("description".toList, .str ("first description".toList))])

/-- Second occurrence of the same topic name with another description. -/
def wTopicB : JsonVal :=
  .obj (JsonObj.ofList [("topic".toList, .str ("Budget".toList)),
    ("description".toList, .str ("second description".toList))])

/-- First concrete chunk summary for the C7 witness. -/
def wSum1 : JsonVal :=
  .obj (JsonObj.ofList [("chunk_number".toList, .num (natLit 1)),
    ("topics".toList, .arr (JsonArr.ofList [wTopicA]))])

/-- Second concrete chunk summary for the C7 witness. -/
def wSum2 : JsonVal :=
  .obj (JsonObj.ofList [("chunk_number".toList, .num (natLit 2)),
    ("topics".toList, .arr (JsonArr.ofList [wTopicB]))])

/-- A well-formed JSON object whose string value contains the triple-backtick
marker: valid input that the fence-stripping replace still mangles. -/
def c9Input : List Char := ['{', '"', 'a', '"', ':', '"'] ++ fence3 ++ ['"', '}']

/-- A well-formed JSON object string (with surrounding whitespace and no fence
marker) for the amended C9 witness. -/
def c9Clean : List Char := [' ', '{', '"', 'a', '"', ':', '1', '}', '\n']

/-! ## Supporting lemmas -/

theorem bestBreakStep_inv {cur target searchStart : Nat} {init : Option Nat} {p : Nat}
    (hinit : ∀ b, init = some b → cur + 5000 ≤ b ∧ b ≤ target + 500) :
    ∀ b, bestBreakStep cur target searchStart init p = some b →
      cur + 5000 ≤ b ∧ b ≤ target + 500 := by
  intro b hb
  cases init with
  | none =>
    simp only [bestBreakStep] at hb
    split at hb
    · rename_i hcond
      cases hb
      exact hcond
    · cases hb
  | some b0 =>
    simp only [bestBreakStep] at hb
    split at hb
    · rename_i hcond
      split at hb
      · cases hb
        exact hcond
      · cases hb
        exact hinit b rfl
    · cases hb
      exact hinit b rfl

theorem bestBreakFold_bounds (cur target searchStart : Nat) :
    ∀ (l : List Nat) (init : Option Nat),
      (∀ b, init = some b → cur + 5000 ≤ b ∧ b ≤ target + 500) →
      ∀ b, l.foldl (bestBreakStep cur target searchStart) init = some b →
        cur + 5000 ≤ b ∧ b ≤ target + 500 := by
  intro l
  induction l with
  | nil => exact fun init hinit b hb => hinit b hb
  | cons p l ih =>
    intro init hinit b hb
    exact ih (bestBreakStep cur target searchStart init p)
      (bestBreakStep_inv hinit) b hb

theorem bestBreak_bounds (text : List Char) (cur target searchStart : Nat) (b : Nat)
    (hb : bestBreak text cur target searchStart = some b) :
    cur + 5000 ≤ b ∧ b ≤ target + 500 :=
  bestBreakFold_bounds cur target searchStart _ none (fun _ h => by cases h) b hb

theorem chunkEnd_cases (text : List Char) (cur : Nat)
    (h : ¬ (text.length - 1000 ≤ min (cur + 50000) text.length)) :
    chunkEnd text cur = min (cur + 50000) text.length ∨
      (cur + 5000 ≤ chunkEnd text cur ∧
        chunkEnd text cur ≤ min (cur + 50000) text.length + 500) := by
  have hrw : chunkEnd text cur =
      breakOrTarget (min (cur + 50000) text.length)
        (bestBreak text cur (min (cur + 50000) text.length)
          (max (min (cur + 50000) text.length - 2000) cur)) := by
    unfold chunkEnd
    rw [if_neg h]
  cases hfold : bestBreak text cur (min (cur + 50000) text.length)
      (max (min (cur + 50000) text.length - 2000) cur) with
  | none =>
    rw [hrw, hfold]
    exact Or.inl rfl
  | some b =>
    have hb := bestBreak_bounds text cur _ _ b hfold
    rw [hrw, hfold]
    by_cases h0 : b = 0
    · subst h0
      simp [breakOrTarget]
    · simp only [breakOrTarget]
      rw [if_neg h0]
      exact Or.inr hb

theorem chunkEnd_progress (text : List Char) (cur : Nat) (h : cur < text.length) :
    cur < chunkEnd text cur ∧ chunkEnd text cur ≤ text.length := by
  by_cases hnear : text.length - 1000 ≤ min (cur + 50000) text.length
  · have hval : chunkEnd text cur = text.length := by
      unfold chunkEnd
      rw [if_pos hnear]
    rw [hval]
    exact ⟨h, le_rfl⟩
  · rcases chunkEnd_cases text cur hnear with hval | hval
    · rw [hval]
      omega
    · omega

theorem chunkLoop_isSome (text : List Char) :
    ∀ fuel cur num : Nat, text.length - cur < fuel → (chunkLoop text fuel cur num).isSome := by
  intro fuel
  induction fuel with
  | zero => intro cur num h; exact absurd h (Nat.not_lt_zero _)
  | succ f ih =>
    intro cur num h
    by_cases hc : cur < text.length
    · have hprog := chunkEnd_progress text cur hc
      have hf : text.length - chunkEnd text cur < f := by omega
      simp only [chunkLoop]
      rw [if_pos hc]
      cases he : (pyStrip (pySlice text cur (chunkEnd text cur))).isEmpty with
      | true =>
        rw [if_pos rfl]
        exact ih (chunkEnd text cur) num hf
      | false =>
        rw [if_neg Bool.false_ne_true]
        rcases hsome : chunkLoop text f (chunkEnd text cur) (num + 1) with _ | rest
        · have := ih (chunkEnd text cur) (num + 1) hf
          rw [hsome] at this
          simp at this
        · simp [hsome]
    · simp [chunkLoop, hc]

theorem apiLoop_const_http (status : Nat) (body : JsonVal) (mr : Nat)
    (h4 : 400 ≤ status) (h6 : status < 600) :
    ∀ fuel attempt : Nat, attempt + fuel = mr + 1 → 0 < fuel →
      (apiLoop (fun _ => HttpOutcome.resp status body) mr attempt fuel).attempts = fuel ∧
      (apiLoop (fun _ => HttpOutcome.resp status body) mr attempt fuel).result =
        Except.error (.httpErr status) := by
  intro fuel
  induction fuel with
  | zero => intro attempt _ hpos; exact absurd hpos (by omega)
  | succ f ih =>
    intro attempt hsum _
    simp only [apiLoop]
    rw [if_pos ⟨h4, h6⟩]
    by_cases hlt : attempt < mr
    · rw [if_pos hlt]
      have hf : 0 < f := by omega
      have hih := ih (attempt + 1) (by omega) hf
      simp [hih.1, hih.2]
    · rw [if_neg hlt]
      have hf : f = 0 := by omega
      subst hf
      exact ⟨rfl, rfl⟩

theorem assocFind_set_self {α β : Type} [DecidableEq α] (kvs : List (α × β)) (k : α)
    (v : β) : assocFind (assocSet kvs k v) k = some v := by
  induction kvs with
  | nil => simp [assocSet, assocFind]
  | cons kv rest ih =>
    obtain ⟨k', v'⟩ := kv
    by_cases h : k' = k
    · simp [assocSet, assocFind, h]
    · simp [assocSet, assocFind, h, ih]

theorem assocFind_set_ne {α β : Type} [DecidableEq α] (kvs : List (α × β)) (k k' : α)
    (v : β) (h : k' ≠ k) : assocFind (assocSet kvs k' v) k = assocFind kvs k := by
  induction kvs with
  | nil => simp [assocSet, assocFind, h]
  | cons kv rest ih =>
    obtain ⟨k0, v0⟩ := kv
    by_cases h0 : k0 = k'
    · subst h0
      simp [assocSet, assocFind, h]
    · simp [assocSet, assocFind, h0, ih]

theorem assocFind_ppPu_other (m : List (List Char × JsonVal)) (k : List Char)
    (h : k ≠ "political_undercurrents".toList) :
    assocFind (ppPu m) k = assocFind m k := by
  unfold ppPu
  split
  · exact assocFind_set_ne m _ _ _ (Ne.symm h)
  · rfl

theorem assocFind_ppFcf_other (m : List (List Char × JsonVal)) (k : List Char)
    (h : k ≠ "fact_check_flags".toList) :
    assocFind (ppFcf m) k = assocFind m k := by
  unfold ppFcf
  split
  · exact assocFind_set_ne m _ _ _ (Ne.symm h)
  · rfl

theorem assocFind_ppPu_isSome (m : List (List Char × JsonVal)) :
    (assocFind (ppPu m) ("political_undercurrents".toList)).isSome := by
  unfold ppPu
  split
  · rw [assocFind_set_self]
    rfl
  · rename_i h
    rcases hx : assocFind m ("political_undercurrents".toList) with _ | v
    · rw [hx] at h
      simp at h
    · rfl

theorem assocFind_ppFcf_isSome (m : List (List Char × JsonVal)) :
    (assocFind (ppFcf m) ("fact_check_flags".toList)).isSome := by
  unfold ppFcf
  split
  · rw [assocFind_set_self]
    rfl
  · rename_i h
    rcases hx : assocFind m ("fact_check_flags".toList) with _ | v
    · rw [hx] at h
      simp at h
    · rfl

theorem jGet_postprocess_other (n : Nat) (kvs : JsonObj) (k : List Char)
    (h1 : k ≠ "chunk_number".toList) (h2 : k ≠ "political_undercurrents".toList)
    (h3 : k ≠ "fact_check_flags".toList) :
    jGet (postprocessAnalysis n kvs) k = objFind kvs k := by
  unfold postprocessAnalysis jGet objFind
  simp only [JsonObj.objToList_ofList]
  rw [assocFind_ppFcf_other _ _ h3, assocFind_ppPu_other _ _ h2,
    assocFind_set_ne _ _ _ _ (Ne.symm h1)]

theorem jGet_postprocess_chunkNumber (n : Nat) (kvs : JsonObj) :
    jGet (postprocessAnalysis n kvs) ("chunk_number".toList) =
      some (JsonVal.num (natLit n)) := by
  unfold postprocessAnalysis jGet objFind
  simp only [JsonObj.objToList_ofList]
  rw [assocFind_ppFcf_other _ _ (by decide), assocFind_ppPu_other _ _ (by decide),
    assocFind_set_self]

theorem jGet_postprocess_pu (n : Nat) (kvs : JsonObj) :
    (jGet (postprocessAnalysis n kvs) ("political_undercurrents".toList)).isSome := by
  unfold postprocessAnalysis jGet objFind
  simp only [JsonObj.objToList_ofList]
  rw [assocFind_ppFcf_other _ _ (by decide)]
  exact assocFind_ppPu_isSome _

theorem jGet_postprocess_fcf (n : Nat) (kvs : JsonObj) :
    (jGet (postprocessAnalysis n kvs) ("fact_check_flags".toList)).isSome := by
  unfold postprocessAnalysis jGet objFind
  simp only [JsonObj.objToList_ofList]
  exact assocFind_ppFcf_isSome _

theorem pyStrip_eq_nil_all_ws {s : List Char} (h : pyStrip s = []) :
    ∀ c ∈ s, isPyWs c := by
  unfold pyStrip dropTrailing at h
  rw [List.reverse_eq_nil_iff, List.dropWhile_eq_nil_iff] at h
  intro c hc
  have hsplit : c ∈ s.takeWhile isPyWs ++ s.dropWhile isPyWs := by
    rw [List.takeWhile_append_dropWhile]
    exact hc
  rcases List.mem_append.mp hsplit with h1 | h2
  · exact List.mem_takeWhile_imp h1
  · exact h c (List.mem_reverse.mpr h2)

theorem pySlice_length (text : List Char) (a b : Nat) (h : b ≤ text.length) :
    (pySlice text a b).length = b - a := by
  unfold pySlice
  rw [List.length_take, List.length_drop]
  omega

theorem pySlice_getD (text : List Char) (a b p : Nat) (h1 : a ≤ p) (h2 : p < b)
    (_h3 : b ≤ text.length) :
    (pySlice text a b).getD (p - a) ' ' = text.getD p ' ' := by
  unfold pySlice
  rw [List.getD_eq_getElem?_getD, List.getD_eq_getElem?_getD,
    List.getElem?_take_of_lt (by omega), List.getElem?_drop]
  have hap : a + (p - a) = p := by omega
  rw [hap]

theorem chunkLoop_inv (text : List Char) :
    ∀ fuel cur num l, chunkLoop text fuel cur num = some l →
      ∀ c ∈ l, cur ≤ c.start_pos ∧ c.start_pos < c.end_pos ∧
        c.end_pos ≤ text.length ∧
        c.text = pyStrip (pySlice text c.start_pos c.end_pos) ∧ c.text ≠ [] := by
  intro fuel
  induction fuel with
  | zero => intro cur num l h; cases h
  | succ f ih =>
    intro cur num l h
    simp only [chunkLoop] at h
    by_cases hc : cur < text.length
    · rw [if_pos hc] at h
      have hprog := chunkEnd_progress text cur hc
      cases he : (pyStrip (pySlice text cur (chunkEnd text cur))).isEmpty with
      | true =>
        rw [he, if_pos rfl] at h
        intro c hcmem
        obtain ⟨ha, hb, hc2, hd, he2⟩ := ih _ _ _ h c hcmem
        exact ⟨by omega, hb, hc2, hd, he2⟩
      | false =>
        rw [he, if_neg Bool.false_ne_true] at h
        rcases hrec : chunkLoop text f (chunkEnd text cur) (num + 1) with _ | rest
        · rw [hrec] at h
          cases h
        · rw [hrec] at h
          cases h
          intro c hcmem
          rcases List.mem_cons.mp hcmem with hceq | hcmem'
          · subst hceq
            refine ⟨le_refl cur, hprog.1, hprog.2, rfl, ?_⟩
            intro hnil
            have hnil' : pyStrip (pySlice text cur (chunkEnd text cur)) = [] := hnil
            rw [hnil'] at he
            simp at he
          · obtain ⟨ha, hb, hc2, hd, he2⟩ := ih _ _ _ hrec c hcmem'
            exact ⟨by omega, hb, hc2, hd, he2⟩
    · rw [if_neg hc] at h
      cases h
      intro c hcmem
      exact absurd hcmem (List.not_mem_nil c)

theorem chunkLoop_chain (text : List Char) :
    ∀ fuel cur num l, chunkLoop text fuel cur num = some l →
      List.Chain' (fun a b => a.end_pos ≤ b.start_pos) l := by
  intro fuel
  induction fuel with
  | zero => intro cur num l h; cases h
  | succ f ih =>
    intro cur num l h
    simp only [chunkLoop] at h
    by_cases hc : cur < text.length
    · rw [if_pos hc] at h
      cases he : (pyStrip (pySlice text cur (chunkEnd text cur))).isEmpty with
      | true =>
        rw [he, if_pos rfl] at h
        exact ih _ _ _ h
      | false =>
        rw [he, if_neg Bool.false_ne_true] at h
        rcases hrec : chunkLoop text f (chunkEnd text cur) (num + 1) with _ | rest
        · rw [hrec] at h
          cases h
        · rw [hrec] at h
          cases h
          rw [List.chain'_cons']
          refine ⟨?_, ih _ _ _ hrec⟩
          intro y hy
          have hmem : y ∈ rest := List.mem_of_mem_head? hy
          exact (chunkLoop_inv text f (chunkEnd text cur) (num + 1) rest hrec y hmem).1
    · rw [if_neg hc] at h
      cases h
      exact List.chain'_nil

theorem chunkLoop_nums (text : List Char) :
    ∀ fuel cur num l, chunkLoop text fuel cur num = some l →
      l.map (fun c => c.chunk_number) = List.range' num l.length := by
  intro fuel
  induction fuel with
  | zero => intro cur num l h; cases h
  | succ f ih =>
    intro cur num l h
    simp only [chunkLoop] at h
    by_cases hc : cur < text.length
    · rw [if_pos hc] at h
      cases he : (pyStrip (pySlice text cur (chunkEnd text cur))).isEmpty with
      | true =>
        rw [he, if_pos rfl] at h
        exact ih _ _ _ h
      | false =>
        rw [he, if_neg Bool.false_ne_true] at h
        rcases hrec : chunkLoop text f (chunkEnd text cur) (num + 1) with _ | rest
        · rw [hrec] at h
          cases h
        · rw [hrec] at h
          cases h
          simp only [List.map_cons, List.length_cons, ih _ _ _ hrec]
          rw [List.range'_succ]
    · rw [if_neg hc] at h
      cases h
      rfl

theorem chunkLoop_coverage (text : List Char) :
    ∀ fuel cur num l, chunkLoop text fuel cur num = some l →
      ∀ p, cur ≤ p → p < text.length →
        (∃ c ∈ l, c.start_pos ≤ p ∧ p < c.end_pos) ∨
          isPyWs (text.getD p ' ') = true := by
  intro fuel
  induction fuel with
  | zero => intro cur num l h; cases h
  | succ f ih =>
    intro cur num l h
    simp only [chunkLoop] at h
    by_cases hc : cur < text.length
    · rw [if_pos hc] at h
      have hprog := chunkEnd_progress text cur hc
      cases he : (pyStrip (pySlice text cur (chunkEnd text cur))).isEmpty with
      | true =>
        rw [he, if_pos rfl] at h
        intro p hp1 hp2
        by_cases hpe : p < chunkEnd text cur
        · right
          have hnil : pyStrip (pySlice text cur (chunkEnd text cur)) = [] :=
            List.isEmpty_iff.mp he
          have hallws := pyStrip_eq_nil_all_ws hnil
          have hlen : (pySlice text cur (chunkEnd text cur)).length =
              chunkEnd text cur - cur := pySlice_length text _ _ hprog.2
          have hidx : p - cur < (pySlice text cur (chunkEnd text cur)).length := by omega
          have hgd : (pySlice text cur (chunkEnd text cur)).getD (p - cur) ' ' =
              text.getD p ' ' := pySlice_getD text cur (chunkEnd text cur) p hp1 hpe hprog.2
          have hmem : (pySlice text cur (chunkEnd text cur)).getD (p - cur) ' ' ∈
              pySlice text cur (chunkEnd text cur) := by
            rw [List.getD_eq_getElem?_getD, List.getElem?_eq_getElem hidx]
            exact List.getElem_mem hidx
          rw [hgd] at hmem
          exact hallws _ hmem
        · exact ih _ _ _ h p (by omega) hp2
      | false =>
        rw [he, if_neg Bool.false_ne_true] at h
        rcases hrec : chunkLoop text f (chunkEnd text cur) (num + 1) with _ | rest
        · rw [hrec] at h
          cases h
        · rw [hrec] at h
          cases h
          intro p hp1 hp2
          by_cases hpe : p < chunkEnd text cur
          · exact Or.inl ⟨_, List.mem_cons_self _ _, hp1, hpe⟩
          · rcases ih _ _ _ hrec p (by omega) hp2 with ⟨c, hcm, hcp⟩ | hws
            · exact Or.inl ⟨c, List.mem_cons_of_mem _ hcm, hcp⟩
            · exact Or.inr hws
    · intro p hp1 hp2
      exact absurd hp2 (by omega)

/-! ## Claims -/

/-- Claim C3, counterexample: a malformed-request 400 response *is* retried by
`make_api_request` — against a transport answering 400 on every attempt with
`max_retries = 2`, three attempts run (not one) before the `HTTPError`
propagates, because `raise_for_status` raises a `RequestException` subclass,
which the retry handler catches. -/
theorem C3_counterexample :
    (makeApiRequest (fun _ => HttpOutcome.resp 400 JsonVal.null) 2).attempts = 3 ∧
    (makeApiRequest (fun _ => HttpOutcome.resp 400 JsonVal.null) 2).result =
      Except.error (.httpErr 400) ∧
    ¬ (makeApiRequest (fun _ => HttpOutcome.resp 400 JsonVal.null) 2).attempts = 1 := by
  decide

/-- Claim C3 (amended): a non-2xx HTTP response raises `HTTPError`, which is a
`requests.exceptions.RequestException`, so `make_api_request` retries it like
any transient failure: against an always-4xx/5xx transport it performs
`max_retries + 1` attempts and then propagates the `HTTPError`. -/
theorem C3_amended_http_retried (mr status : Nat) (body : JsonVal)
    (h4 : 400 ≤ status) (h6 : status < 600) :
    (makeApiRequest (fun _ => HttpOutcome.resp status body) mr).attempts = mr + 1 ∧
    (makeApiRequest (fun _ => HttpOutcome.resp status body) mr).result =
      Except.error (.httpErr status) :=
  apiLoop_const_http status body mr h4 h6 (mr + 1) 0 (by omega) (by omega)

/-- Witness for the amended C3 at `max_retries = 1`, status 404. -/
theorem C3_amended_http_retried_witness :
    (makeApiRequest (fun _ => HttpOutcome.resp 404 JsonVal.null) 1).attempts = 2 ∧
    (makeApiRequest (fun _ => HttpOutcome.resp 404 JsonVal.null) 1).result =
      Except.error (.httpErr 404) :=
  C3_amended_http_retried 1 404 JsonVal.null (by decide) (by decide)

/-- Claim C8: with `max_retries = 2` against a transport where every attempt
raises a transient request failure, `make_api_request` performs exactly
3 attempts (1 initial + 2 retries) with exponential backoff `2 ** attempt`
seconds between failed attempts (base 1), and after the final failed attempt
the failure propagates to the caller. -/
theorem C8_retry_ceiling (transport : Nat → HttpOutcome) (msg : Nat → List Char)
    (h : ∀ k, transport k = HttpOutcome.netFail (msg k)) :
    makeApiRequest transport 2 =
      ⟨3, [2 ^ 0, 2 ^ 1], Except.error (.requestErr (msg 2))⟩ := by
  have h0 := h 0
  have h1 := h 1
  have h2 := h 2
  simp [makeApiRequest, apiLoop, h0, h1, h2]

/-- Witness for C8 with the constant failing transport. -/
theorem C8_retry_ceiling_witness :
    makeApiRequest (fun _ => HttpOutcome.netFail []) 2 =
      ⟨3, [2 ^ 0, 2 ^ 1], Except.error (.requestErr [])⟩ :=
  C8_retry_ceiling (fun _ => HttpOutcome.netFail []) (fun _ => []) (fun _ => rfl)

/-- Claim C10: `chunk_text_smartly` terminates on every input — whenever the
cursor is inside the text, the computed chunk end strictly exceeds it (an
accepted boundary break is at least `current_pos + 5000`, and the fallback
`min(current_pos + 50000, len)` also advances) while never overshooting the
text, so the walk (here: the fueled loop) completes within `len - cur` steps. -/
theorem C10_termination :
    (∀ (text : List Char) (cur : Nat), cur < text.length →
      cur < chunkEnd text cur ∧ chunkEnd text cur ≤ text.length) ∧
    (∀ (text : List Char) (fuel cur num : Nat), text.length - cur < fuel →
      (chunkLoop text fuel cur num).isSome) :=
  ⟨chunkEnd_progress, chunkLoop_isSome⟩

/-- Witness for C10 on a one-character text. -/
theorem C10_termination_witness :
    (0 < chunkEnd ['a'] 0 ∧ chunkEnd ['a'] 0 ≤ ['a'].length) ∧
    (chunkLoop ['a'] 2 0 1).isSome :=
  ⟨C10_termination.1 ['a'] 0 (by decide), C10_termination.2 ['a'] 2 0 1 (by decide)⟩

theorem summarizeChunk_success (n : Nat) (api : Nat → Except PyErr (List Char))
    (mr : Nat) (kvs : JsonObj) (h : analyzeAttempt (api 0) = .success kvs) :
    summarizeChunk n api mr = postprocessAnalysis n kvs := by
  unfold summarizeChunk
  simp only [summarizeLoop, h]

theorem summarizeLoop_cases (n : Nat) (api : Nat → Except PyErr (List Char)) (mr : Nat) :
    ∀ fuel attempt : Nat,
      (∃ kvs, summarizeLoop n api mr attempt fuel = postprocessAnalysis n kvs) ∨
      summarizeLoop n api mr attempt fuel = placeholderRecord n ∨
      summarizeLoop n api mr attempt fuel = minimalRecord n := by
  intro fuel
  induction fuel with
  | zero => exact fun attempt => Or.inr (Or.inr rfl)
  | succ f ih =>
    intro attempt
    cases ha : analyzeAttempt (api attempt) with
    | success kvs => exact Or.inl ⟨kvs, by simp only [summarizeLoop, ha]⟩
    | decodeFail =>
      by_cases hlt : attempt < mr
      · have := ih (attempt + 1)
        simpa only [summarizeLoop, ha, if_pos hlt] using this
      · exact Or.inr (Or.inl (by simp only [summarizeLoop, ha, if_neg hlt]))
    | otherFail =>
      by_cases hlt : attempt < mr
      · have := ih (attempt + 1)
        simpa only [summarizeLoop, ha, if_pos hlt] using this
      · exact Or.inr (Or.inr (by simp only [summarizeLoop, ha, if_neg hlt]))

theorem summarizeLoop_allfail (n : Nat) (api : Nat → Except PyErr (List Char)) (mr : Nat)
    (hfail : ∀ a, a ≤ mr → ∀ kvs, analyzeAttempt (api a) ≠ .success kvs) :
    ∀ fuel attempt : Nat, attempt + fuel = mr + 1 → 0 < fuel →
      summarizeLoop n api mr attempt fuel =
        (if analyzeAttempt (api mr) = .decodeFail then placeholderRecord n
         else minimalRecord n) := by
  intro fuel
  induction fuel with
  | zero => intro attempt _ hpos; exact absurd hpos (by omega)
  | succ f ih =>
    intro attempt hsum _
    cases ha : analyzeAttempt (api attempt) with
    | success kvs => exact absurd ha (hfail attempt (by omega) kvs)
    | decodeFail =>
      by_cases hlt : attempt < mr
      · simp only [summarizeLoop, ha, if_pos hlt]
        exact ih (attempt + 1) (by omega) (by omega)
      · have hmr : attempt = mr := by omega
        subst hmr
        simp only [summarizeLoop, ha, if_neg hlt, if_pos]
    | otherFail =>
      by_cases hlt : attempt < mr
      · simp only [summarizeLoop, ha, if_pos hlt]
        exact ih (attempt + 1) (by omega) (by omega)
      · have hmr : attempt = mr := by omega
        subst hmr
        rw [if_neg (by simp [ha])]
        simp only [summarizeLoop, ha, if_neg hlt]

theorem placeholder_chunkNumber (n : Nat) :
    jGet (placeholderRecord n) ("chunk_number".toList) = some (JsonVal.num (natLit n)) := by
  simp +decide [placeholderRecord, jGet, objFind, assocFind]

theorem minimal_chunkNumber (n : Nat) :
    jGet (minimalRecord n) ("chunk_number".toList) = some (JsonVal.num (natLit n)) := by
  simp +decide [minimalRecord, jGet, objFind, assocFind]

theorem placeholder_error_none (n : Nat) :
    jGet (placeholderRecord n) ("error".toList) = none := by
  simp +decide [placeholderRecord, jGet, objFind, assocFind]

theorem minimal_error_none (n : Nat) :
    jGet (minimalRecord n) ("error".toList) = none := by
  simp +decide [minimalRecord, jGet, objFind, assocFind]

/-- Claim C4, counterexample: after a successful extraction of the well-formed
completion `{"a": 1}`, the returned record contains no `topics`,
`key_decisions` or `notable_exchanges` fields at all — the success path does
not back-fill them (it back-fills only `political_undercurrents` and
`fact_check_flags`). -/
theorem C4_counterexample :
    jGet (summarizeChunk 1 (fun _ => Except.ok ['{', '"', 'a', '"', ':', '1', '}']) 1)
      ("topics".toList) = none ∧
    jGet (summarizeChunk 1 (fun _ => Except.ok ['{', '"', 'a', '"', ':', '1', '}']) 1)
      ("key_decisions".toList) = none ∧
    jGet (summarizeChunk 1 (fun _ => Except.ok ['{', '"', 'a', '"', ':', '1', '}']) 1)
      ("notable_exchanges".toList) = none ∧
    jGet (summarizeChunk 1 (fun _ => Except.ok ['{', '"', 'a', '"', ':', '1', '}']) 1)
      ("a".toList) = some (JsonVal.num ['1']) ∧
    jGet (summarizeChunk 1 (fun _ => Except.ok ['{', '"', 'a', '"', ':', '1', '}']) 1)
      ("chunk_number".toList) = some (JsonVal.num ['1']) := by
  decide

/-- Claim C4 (amended): after a successful extraction, `summarize_chunk`
returns the parsed record postprocessed by setting `chunk_number` and
back-filling only the two fields `political_undercurrents` and
`fact_check_flags` with their empty defaults; `topics`, `key_decisions` and
`notable_exchanges` are not back-filled — each is present in the result
exactly when the completion text supplied it. -/
theorem C4_amended_backfill (n mr : Nat) (kvs : JsonObj)
    (api : Nat → Except PyErr (List Char))
    (hapi : analyzeAttempt (api 0) = .success kvs) :
    summarizeChunk n api mr = postprocessAnalysis n kvs ∧
    jGet (postprocessAnalysis n kvs) ("chunk_number".toList) =
      some (JsonVal.num (natLit n)) ∧
    (jGet (postprocessAnalysis n kvs) ("political_undercurrents".toList)).isSome ∧
    (jGet (postprocessAnalysis n kvs) ("fact_check_flags".toList)).isSome ∧
    jGet (postprocessAnalysis n kvs) ("topics".toList) = objFind kvs ("topics".toList) ∧
    jGet (postprocessAnalysis n kvs) ("key_decisions".toList) =
      objFind kvs ("key_decisions".toList) ∧
    jGet (postprocessAnalysis n kvs) ("notable_exchanges".toList) =
      objFind kvs ("notable_exchanges".toList) :=
  ⟨summarizeChunk_success n api mr kvs hapi,
   jGet_postprocess_chunkNumber n kvs,
   jGet_postprocess_pu n kvs,
   jGet_postprocess_fcf n kvs,
   jGet_postprocess_other n kvs _ (by decide) (by decide) (by decide),
   jGet_postprocess_other n kvs _ (by decide) (by decide) (by decide),
   jGet_postprocess_other n kvs _ (by decide) (by decide) (by decide)⟩

/-- Witness for the amended C4 at the concrete completion `{"b": 2}`. -/
theorem C4_amended_backfill_witness :
    summarizeChunk 3 (fun _ => Except.ok ['{', '"', 'b', '"', ':', '2', '}']) 1 =
      postprocessAnalysis 3 (.cons ['b'] (JsonVal.num ['2']) .nil) ∧
    jGet (postprocessAnalysis 3 (.cons ['b'] (JsonVal.num ['2']) .nil))
      ("chunk_number".toList) = some (JsonVal.num (natLit 3)) ∧
    (jGet (postprocessAnalysis 3 (.cons ['b'] (JsonVal.num ['2']) .nil))
      ("political_undercurrents".toList)).isSome ∧
    (jGet (postprocessAnalysis 3 (.cons ['b'] (JsonVal.num ['2']) .nil))
      ("fact_check_flags".toList)).isSome ∧
    jGet (postprocessAnalysis 3 (.cons ['b'] (JsonVal.num ['2']) .nil)) ("topics".toList) =
      objFind (.cons ['b'] (JsonVal.num ['2']) .nil) ("topics".toList) ∧
    jGet (postprocessAnalysis 3 (.cons ['b'] (JsonVal.num ['2']) .nil))
      ("key_decisions".toList) =
      objFind (.cons ['b'] (JsonVal.num ['2']) .nil) ("key_decisions".toList) ∧
    jGet (postprocessAnalysis 3 (.cons ['b'] (JsonVal.num ['2']) .nil))
      ("notable_exchanges".toList) =
      objFind (.cons ['b'] (JsonVal.num ['2']) .nil) ("notable_exchanges".toList) :=
  C4_amended_backfill 3 1 (.cons ['b'] (JsonVal.num ['2']) .nil)
    (fun _ => Except.ok ['{', '"', 'b', '"', ':', '2', '}']) (by decide)

theorem attemptFailed_iff (r : Except PyErr (List Char)) :
    attemptFailed r = true ↔ ∀ kvs, analyzeAttempt r ≠ .success kvs := by
  unfold attemptFailed
  cases h : analyzeAttempt r <;> simp [h]

/-- Claim C2, counterexample: on total parse failure the returned record does
NOT carry an `error` field, and its `topics` field is not the empty default —
for the undecodable completion `{"x": }` the decode-failure fallback returns a
one-element placeholder topic list and no `error` key. -/
theorem C2_counterexample :
    jGet (summarizeChunk 1 (fun _ => Except.ok ['{', '"', 'x', '"', ':', '}']) 1)
      ("error".toList) = none ∧
    jGet (summarizeChunk 1 (fun _ => Except.ok ['{', '"', 'x', '"', ':', '}']) 1)
      ("topics".toList) ≠ some (JsonVal.arr .nil) ∧
    (jGet (summarizeChunk 1 (fun _ => Except.ok ['{', '"', 'x', '"', ':', '}']) 1)
      ("topics".toList)).isSome := by
  decide

/-- Claim C2 (amended): extraction never raises and always returns a record —
an object carrying `chunk_number` — but on total parse failure the record is
one of the two fixed fallbacks, neither of which carries an `error` field;
the decode-failure fallback's `topics` holds a one-element placeholder rather
than the empty default. -/
theorem C2_amended_extractor_total (n mr : Nat)
    (api : Nat → Except PyErr (List Char)) :
    (∃ kvs, summarizeChunk n api mr = JsonVal.obj kvs) ∧
    jGet (summarizeChunk n api mr) ("chunk_number".toList) =
      some (JsonVal.num (natLit n)) ∧
    ((∀ a, a ≤ mr → attemptFailed (api a) = true) →
      (summarizeChunk n api mr = placeholderRecord n ∨
        summarizeChunk n api mr = minimalRecord n) ∧
      jGet (summarizeChunk n api mr) ("error".toList) = none) := by
  have hcases := summarizeLoop_cases n api mr (mr + 1) 0
  refine ⟨?_, ?_, ?_⟩
  · rcases hcases with ⟨kvs, h⟩ | h | h
    · exact ⟨_, by rw [show summarizeChunk n api mr = _ from h, postprocessAnalysis]⟩
    · exact ⟨_, by rw [show summarizeChunk n api mr = _ from h, placeholderRecord]⟩
    · exact ⟨_, by rw [show summarizeChunk n api mr = _ from h, minimalRecord]⟩
  · rcases hcases with ⟨kvs, h⟩ | h | h
    · rw [show summarizeChunk n api mr = _ from h]
      exact jGet_postprocess_chunkNumber n kvs
    · rw [show summarizeChunk n api mr = _ from h]
      exact placeholder_chunkNumber n
    · rw [show summarizeChunk n api mr = _ from h]
      exact minimal_chunkNumber n
  · intro hfail
    have hfail' : ∀ a, a ≤ mr → ∀ kvs, analyzeAttempt (api a) ≠ .success kvs :=
      fun a ha => (attemptFailed_iff (api a)).mp (hfail a ha)
    have h := summarizeLoop_allfail n api mr hfail' (mr + 1) 0 (by omega) (by omega)
    rw [show summarizeChunk n api mr = summarizeLoop n api mr 0 (mr + 1) from rfl, h]
    by_cases hd : analyzeAttempt (api mr) = .decodeFail
    · rw [if_pos hd]
      exact ⟨Or.inl rfl, placeholder_error_none n⟩
    · rw [if_neg hd]
      exact ⟨Or.inr rfl, minimal_error_none n⟩

/-- Witness for the amended C2 with an always-failing completion. -/
theorem C2_amended_extractor_total_witness :
    (∃ kvs, summarizeChunk 1 (fun _ => Except.ok ['n', 'o']) 1 = JsonVal.obj kvs) ∧
    jGet (summarizeChunk 1 (fun _ => Except.ok ['n', 'o']) 1) ("chunk_number".toList) =
      some (JsonVal.num (natLit 1)) ∧
    ((∀ a, a ≤ 1 → attemptFailed ((fun _ => Except.ok ['n', 'o']) a) = true) →
      (summarizeChunk 1 (fun _ => Except.ok ['n', 'o']) 1 = placeholderRecord 1 ∨
        summarizeChunk 1 (fun _ => Except.ok ['n', 'o']) 1 = minimalRecord 1) ∧
      jGet (summarizeChunk 1 (fun _ => Except.ok ['n', 'o']) 1) ("error".toList) = none) :=
  C2_amended_extractor_total 1 1 (fun _ => Except.ok ['n', 'o'])

/-- Claim C5, counterexample: when the final attempt fails with a JSON decode
error, the fallback record's `topics` collection is NOT empty — it holds the
one-element placeholder topic — refuting the claimed empty `topics`. -/
theorem C5_counterexample :
    summarizeChunk 2 (fun _ => Except.ok ['{', '"', 'y', '"', ':', '}']) 1 =
      placeholderRecord 2 ∧
    jGet (placeholderRecord 2) ("topics".toList) ≠ some (JsonVal.arr .nil) ∧
    (jGet (placeholderRecord 2) ("topics".toList)).isSome := by
  decide

/-- Claim C5 (amended): `summarize_chunk` never raises; with its one internal
retry (`max_retries = 1`), when both attempts fail it returns the decode-
failure placeholder when the final attempt's failure is a JSON decode error
and the minimal record otherwise; both carry `chunk_number` and a failure note
in `chunk_summary`, and `key_decisions`/`notable_exchanges` are empty — but
`topics` is empty only on the minimal record, the placeholder carrying one
placeholder topic. -/
theorem C5_amended_failure_records (n : Nat) (api : Nat → Except PyErr (List Char))
    (hfail : ∀ a, a ≤ 1 → attemptFailed (api a) = true) :
    summarizeChunk n api 1 =
      (if analyzeAttempt (api 1) = .decodeFail then placeholderRecord n
       else minimalRecord n) ∧
    jGet (summarizeChunk n api 1) ("chunk_number".toList) =
      some (JsonVal.num (natLit n)) ∧
    (jGet (summarizeChunk n api 1) ("chunk_summary".toList)).isSome ∧
    jGet (summarizeChunk n api 1) ("key_decisions".toList) = some (JsonVal.arr .nil) ∧
    jGet (summarizeChunk n api 1) ("notable_exchanges".toList) =
      some (JsonVal.arr .nil) ∧
    (analyzeAttempt (api 1) = .decodeFail →
      jGet (summarizeChunk n api 1) ("topics".toList) ≠ some (JsonVal.arr .nil)) ∧
    (analyzeAttempt (api 1) ≠ .decodeFail →
      jGet (summarizeChunk n api 1) ("topics".toList) = some (JsonVal.arr .nil)) := by
  have hfail' : ∀ a, a ≤ 1 → ∀ kvs, analyzeAttempt (api a) ≠ .success kvs :=
    fun a ha => (attemptFailed_iff (api a)).mp (hfail a ha)
  have h := summarizeLoop_allfail n api 1 hfail' 2 0 (by omega) (by omega)
  have hch : summarizeChunk n api 1 = summarizeLoop n api 1 0 2 := rfl
  rw [hch, h]
  by_cases hd : analyzeAttempt (api 1) = .decodeFail
  · rw [if_pos hd]
    refine ⟨rfl, placeholder_chunkNumber n, ?_, ?_, ?_, fun _ => ?_, fun hc => absurd hd hc⟩
    · simp +decide [placeholderRecord, jGet, objFind, assocFind]
    · simp +decide [placeholderRecord, jGet, objFind, assocFind]
    · simp +decide [placeholderRecord, jGet, objFind, assocFind]
    · simp +decide [placeholderRecord, jGet, objFind, assocFind]
  · rw [if_neg hd]
    refine ⟨rfl, minimal_chunkNumber n, ?_, ?_, ?_, fun hc => absurd hc hd, fun _ => ?_⟩
    · simp +decide [minimalRecord, jGet, objFind, assocFind]
    · simp +decide [minimalRecord, jGet, objFind, assocFind]
    · simp +decide [minimalRecord, jGet, objFind, assocFind]
    · simp +decide [minimalRecord, jGet, objFind, assocFind]

/-- Witness for the amended C5 with an undecodable completion on both attempts. -/
theorem C5_amended_failure_records_witness :
    summarizeChunk 2 (fun _ => Except.ok ['{', '"', 'y', '"', ':', '}']) 1 =
      (if analyzeAttempt ((fun _ => Except.ok ['{', '"', 'y', '"', ':', '}']) 1) =
          .decodeFail then placeholderRecord 2
       else minimalRecord 2) ∧
    jGet (summarizeChunk 2 (fun _ => Except.ok ['{', '"', 'y', '"', ':', '}']) 1)
      ("chunk_number".toList) = some (JsonVal.num (natLit 2)) ∧
    (jGet (summarizeChunk 2 (fun _ => Except.ok ['{', '"', 'y', '"', ':', '}']) 1)
      ("chunk_summary".toList)).isSome ∧
    jGet (summarizeChunk 2 (fun _ => Except.ok ['{', '"', 'y', '"', ':', '}']) 1)
      ("key_decisions".toList) = some (JsonVal.arr .nil) ∧
    jGet (summarizeChunk 2 (fun _ => Except.ok ['{', '"', 'y', '"', ':', '}']) 1)
      ("notable_exchanges".toList) = some (JsonVal.arr .nil) ∧
    (analyzeAttempt ((fun _ => Except.ok ['{', '"', 'y', '"', ':', '}']) 1) =
        .decodeFail →
      jGet (summarizeChunk 2 (fun _ => Except.ok ['{', '"', 'y', '"', ':', '}']) 1)
        ("topics".toList) ≠ some (JsonVal.arr .nil)) ∧
    (analyzeAttempt ((fun _ => Except.ok ['{', '"', 'y', '"', ':', '}']) 1) ≠
        .decodeFail →
      jGet (summarizeChunk 2 (fun _ => Except.ok ['{', '"', 'y', '"', ':', '}']) 1)
        ("topics".toList) = some (JsonVal.arr .nil)) :=
  C5_amended_failure_records 2 (fun _ => Except.ok ['{', '"', 'y', '"', ':', '}'])
    (by decide)

theorem combineErrorRecord_lookups (e : PyErr) (summaries : List JsonVal)
    (mi : JsonVal) (m : MergeResult) :
    jGet (combineErrorRecord e summaries mi m) ("processing_info".toList) = none ∧
    jGet (combineErrorRecord e summaries mi m) ("executive_summary".toList) = none ∧
    jGet (combineErrorRecord e summaries mi m) ("main_topics".toList) = none ∧
    jGet (combineErrorRecord e summaries mi m) ("error".toList) =
      some (JsonVal.str (pyErrMsg e)) ∧
    jGet (combineErrorRecord e summaries mi m) ("meeting_info".toList) = some mi ∧
    jGet (combineErrorRecord e summaries mi m) ("raw_chunk_summaries".toList) =
      some (JsonVal.arr (JsonArr.ofList summaries)) ∧
    jGet (combineErrorRecord e summaries mi m) ("raw_fact_checks".toList) =
      some (JsonVal.arr (JsonArr.ofList m.allFactChecks)) := by
  refine ⟨?_, ?_, ?_, ?_, ?_, ?_, ?_⟩ <;>
    simp +decide [combineErrorRecord, jGet, objFind, assocFind]

theorem synthesisStep_fails (summaries : List JsonVal) (mi : JsonVal) (m : MergeResult)
    (sa : Except PyErr JsonVal) (now : List Char) (hf : synthFails sa = true) :
    ∃ e, synthesisStep summaries mi m sa now = combineErrorRecord e summaries mi m := by
  cases sa with
  | error e => exact ⟨e, rfl⟩
  | ok content =>
    cases content with
    | str t =>
      cases hp : parseSynthesis t with
      | error e => exact ⟨e, by simp [synthesisStep, hp]⟩
      | ok v =>
        cases v with
        | obj kvs =>
          exfalso
          simp [synthFails, hp] at hf
        | null => exact ⟨.typeErr, by simp [synthesisStep, hp]⟩
        | bool b => exact ⟨.typeErr, by simp [synthesisStep, hp]⟩
        | num l => exact ⟨.typeErr, by simp [synthesisStep, hp]⟩
        | str s2 => exact ⟨.typeErr, by simp [synthesisStep, hp]⟩
        | arr xs => exact ⟨.typeErr, by simp [synthesisStep, hp]⟩
    | null => exact ⟨.attributeErr, rfl⟩
    | bool b => exact ⟨.attributeErr, rfl⟩
    | num l => exact ⟨.attributeErr, rfl⟩
    | arr xs => exact ⟨.attributeErr, rfl⟩
    | obj kvs => exact ⟨.attributeErr, rfl⟩

/-- Claim C1, counterexample: when the synthesis completion call raises,
`combine_chunk_summaries` does NOT return a degraded `FinalReport` — the
returned record has no `processing_info`, no `executive_summary`, no
`main_topics` and no `key_decisions` field at all; it is the error record
`{error, meeting_info, raw_chunk_summaries, raw_fact_checks}`. -/
theorem C1_counterexample :
    combineChunkSummaries [] (JsonVal.obj .nil) (.error (.requestErr ['x'])) [] =
      .ok (combineErrorRecord (.requestErr ['x']) [] (JsonVal.obj .nil)
        ⟨[], [], [], [], []⟩) ∧
    jGet (combineErrorRecord (.requestErr ['x']) [] (JsonVal.obj .nil)
      ⟨[], [], [], [], []⟩) ("processing_info".toList) = none ∧
    jGet (combineErrorRecord (.requestErr ['x']) [] (JsonVal.obj .nil)
      ⟨[], [], [], [], []⟩) ("executive_summary".toList) = none ∧
    jGet (combineErrorRecord (.requestErr ['x']) [] (JsonVal.obj .nil)
      ⟨[], [], [], [], []⟩) ("main_topics".toList) = none ∧
    jGet (combineErrorRecord (.requestErr ['x']) [] (JsonVal.obj .nil)
      ⟨[], [], [], [], []⟩) ("key_decisions".toList) = none := by
  decide

/-- Claim C1 (amended): when the deterministic merge pass succeeds and the
synthesis step fails (the completion call raised, or its result fails to
parse as an object), `combine_chunk_summaries` returns the error record
carrying exactly an `error` message, the `meeting_info`, the raw chunk
summaries and the filtered raw fact checks; `processing_info`,
`executive_summary` and `main_topics` are present only on the synthesis
success path, not in this outcome. -/
theorem C1_amended_error_record (summaries : List JsonVal) (mi : JsonVal)
    (now : List Char) (m : MergeResult) (sa : Except PyErr JsonVal)
    (hm : mergePass summaries = .ok m) (hf : synthFails sa = true) :
    ∃ e, combineChunkSummaries summaries mi sa now =
        .ok (combineErrorRecord e summaries mi m) ∧
      jGet (combineErrorRecord e summaries mi m) ("processing_info".toList) = none ∧
      jGet (combineErrorRecord e summaries mi m) ("executive_summary".toList) = none ∧
      jGet (combineErrorRecord e summaries mi m) ("main_topics".toList) = none ∧
      jGet (combineErrorRecord e summaries mi m) ("error".toList) =
        some (JsonVal.str (pyErrMsg e)) ∧
      jGet (combineErrorRecord e summaries mi m) ("meeting_info".toList) = some mi ∧
      jGet (combineErrorRecord e summaries mi m) ("raw_chunk_summaries".toList) =
        some (JsonVal.arr (JsonArr.ofList summaries)) ∧
      jGet (combineErrorRecord e summaries mi m) ("raw_fact_checks".toList) =
        some (JsonVal.arr (JsonArr.ofList m.allFactChecks)) := by
  obtain ⟨e, he⟩ := synthesisStep_fails summaries mi m sa now hf
  refine ⟨e, ?_, combineErrorRecord_lookups e summaries mi m⟩
  unfold combineChunkSummaries
  rw [hm]
  simp [he]

/-- Witness for the amended C1: empty input, raised synthesis call. -/
theorem C1_amended_error_record_witness :
    ∃ e, combineChunkSummaries [] (JsonVal.obj .nil) (.error .typeErr) ['n'] =
        .ok (combineErrorRecord e [] (JsonVal.obj .nil) ⟨[], [], [], [], []⟩) ∧
      jGet (combineErrorRecord e [] (JsonVal.obj .nil) ⟨[], [], [], [], []⟩)
        ("processing_info".toList) = none ∧
      jGet (combineErrorRecord e [] (JsonVal.obj .nil) ⟨[], [], [], [], []⟩)
        ("executive_summary".toList) = none ∧
      jGet (combineErrorRecord e [] (JsonVal.obj .nil) ⟨[], [], [], [], []⟩)
        ("main_topics".toList) = none ∧
      jGet (combineErrorRecord e [] (JsonVal.obj .nil) ⟨[], [], [], [], []⟩)
        ("error".toList) = some (JsonVal.str (pyErrMsg e)) ∧
      jGet (combineErrorRecord e [] (JsonVal.obj .nil) ⟨[], [], [], [], []⟩)
        ("meeting_info".toList) = some (JsonVal.obj .nil) ∧
      jGet (combineErrorRecord e [] (JsonVal.obj .nil) ⟨[], [], [], [], []⟩)
        ("raw_chunk_summaries".toList) = some (JsonVal.arr (JsonArr.ofList [])) ∧
      jGet (combineErrorRecord e [] (JsonVal.obj .nil) ⟨[], [], [], [], []⟩)
        ("raw_fact_checks".toList) =
        some (JsonVal.arr (JsonArr.ofList (MergeResult.allFactChecks
          ⟨[], [], [], [], []⟩))) :=
  C1_amended_error_record [] (JsonVal.obj .nil) ['n'] ⟨[], [], [], [], []⟩
    (.error .typeErr) (by decide) (by decide)

/-- Claim C6, counterexample: the emitted chunks do not tile the text from 0
to its length — a whitespace-only text yields zero chunks, so position 0 of
the one-character text `" "` is covered by no chunk interval. -/
theorem C6_counterexample :
    chunkTextSmartly [' '] = [] ∧
    ¬ (∀ p, p < ([' '] : List Char).length →
        ∃ c ∈ chunkTextSmartly [' '], c.start_pos ≤ p ∧ p < c.end_pos) := by
  decide

/-- Claim C6 (amended): the chunks returned by `chunk_text_smartly` have
ordered, non-overlapping intervals inside `[0, len)`; each chunk's text is the
stripped slice `text[start:end]` and is non-empty; chunks are numbered
consecutively from 1 in emission order; and every position not covered by a
chunk interval (the dropped whitespace-only slices and stripped edges) holds a
whitespace character, so the input is reconstructed from the chunks with the
original whitespace reinserted at its offsets. -/
theorem C6_amended_coverage (text : List Char) :
    List.Chain' (fun a b => a.end_pos ≤ b.start_pos) (chunkTextSmartly text) ∧
    (∀ c ∈ chunkTextSmartly text,
      c.start_pos < c.end_pos ∧ c.end_pos ≤ text.length ∧
      c.text = pyStrip (pySlice text c.start_pos c.end_pos) ∧ c.text ≠ []) ∧
    (chunkTextSmartly text).map (fun c => c.chunk_number) =
      List.range' 1 (chunkTextSmartly text).length ∧
    (∀ p, p < text.length →
      (∃ c ∈ chunkTextSmartly text, c.start_pos ≤ p ∧ p < c.end_pos) ∨
        isPyWs (text.getD p ' ') = true) := by
  have hs := chunkLoop_isSome text (text.length + 1) 0 1 (by omega)
  rcases hl : chunkLoop text (text.length + 1) 0 1 with _ | l
  · rw [hl] at hs
    simp at hs
  · have hcts : chunkTextSmartly text = l := by
      unfold chunkTextSmartly
      rw [hl]
      rfl
    rw [hcts]
    refine ⟨chunkLoop_chain text _ _ _ _ hl, ?_, chunkLoop_nums text _ _ _ _ hl, ?_⟩
    · intro c hc
      obtain ⟨_, hb, hc2, hd, he2⟩ := chunkLoop_inv text _ _ _ _ hl c hc
      exact ⟨hb, hc2, hd, he2⟩
    · intro p hp
      exact chunkLoop_coverage text _ _ _ _ hl p (Nat.zero_le p) hp

theorem jGet_isSome_obj {v : JsonVal} {k : List Char} (h : (jGet v k).isSome) :
    ∃ kvs, v = .obj kvs := by
  cases v with
  | obj kvs => exact ⟨kvs, rfl⟩
  | null => simp [jGet] at h
  | bool b => simp [jGet] at h
  | num l => simp [jGet] at h
  | str s => simp [jGet] at h
  | arr xs => simp [jGet] at h

theorem assocFind_isSome_any {β : Type} (kvs : List (List Char × β)) (k : List Char) :
    (assocFind kvs k).isSome = kvs.any (fun kv => kv.1 == k) := by
  induction kvs with
  | nil => rfl
  | cons kv rest ih =>
    obtain ⟨k', v⟩ := kv
    show (if k' = k then some v else assocFind rest k).isSome =
      ((k' == k) || rest.any (fun kv => kv.1 == k))
    by_cases h : k' = k
    · rw [if_pos h]
      subst h
      rw [Option.isSome_some, beq_self_eq_true, Bool.true_or]
    · rw [if_neg h, ih, beq_eq_false_iff_ne.mpr h, Bool.false_or]

/-- Witness for the amended C6 on a concrete text. -/
theorem C6_amended_coverage_witness :
    List.Chain' (fun a b => a.end_pos ≤ b.start_pos) (chunkTextSmartly ['a', ' ', 'b']) ∧
    (∀ c ∈ chunkTextSmartly ['a', ' ', 'b'],
      c.start_pos < c.end_pos ∧ c.end_pos ≤ (['a', ' ', 'b'] : List Char).length ∧
      c.text = pyStrip (pySlice ['a', ' ', 'b'] c.start_pos c.end_pos) ∧ c.text ≠ []) ∧
    (chunkTextSmartly ['a', ' ', 'b']).map (fun c => c.chunk_number) =
      List.range' 1 (chunkTextSmartly ['a', ' ', 'b']).length ∧
    (∀ p, p < (['a', ' ', 'b'] : List Char).length →
      (∃ c ∈ chunkTextSmartly ['a', ' ', 'b'], c.start_pos ≤ p ∧ p < c.end_pos) ∨
        isPyWs ((['a', ' ', 'b'] : List Char).getD p ' ') = true) :=
  C6_amended_coverage ['a', ' ', 'b']

@[simp] theorem exceptBind_ok {e a b : Type} (x : a) (f : a → Except e b) :
    bind (Except.ok x) f = f x := rfl

@[simp] theorem exceptBind_err {e a b : Type} (err : e) (f : a → Except e b) :
    bind (Except.error err : Except e a) f = .error err := rfl

@[simp] theorem exceptPure {e a : Type} (x : a) :
    (pure x : Except e a) = .ok x := rfl

theorem all_get {α : Type} {p : α → Bool} :
    ∀ (l : List α), l.all p = true → ∀ x ∈ l, p x = true
  | a :: rest, h, x, hx => by
    rw [List.all_cons, Bool.and_eq_true] at h
    cases hx with
    | head => exact h.1
    | tail _ hx2 => exact all_get rest h.2 x hx2
  | [], _, x, hx => absurd hx (List.not_mem_nil x)

set_option maxHeartbeats 1000000 in
theorem mergeTopicStep_eq (cs ti : JsonVal) (st : List (JsonVal × MergedTopic))
    (hti : wfTopic ti = true) (hcs : (jGet cs ("chunk_number".toList)).isSome) :
    mergeTopicStep cs st ti = .ok (addTopic st (sChunkNum cs, ti)) := by
  obtain ⟨ck, rfl⟩ := jGet_isSome_obj hcs
  simp only [wfTopic, Bool.and_eq_true] at hti
  obtain ⟨⟨hnm0, hds0⟩, hpp0⟩ := hti
  obtain ⟨tk, rfl⟩ := jGet_isSome_obj hnm0
  simp only [jGet, objFind] at hnm0 hds0 hpp0 hcs
  rcases hnm : assocFind tk.toList ("topic".toList) with _ | nm
  · rw [hnm] at hnm0
    simp at hnm0
  rcases hds : assocFind tk.toList ("description".toList) with _ | dv
  · rw [hds] at hds0
    simp at hds0
  rcases hcn : assocFind ck.toList ("chunk_number".toList) with _ | cn
  · rw [hcn] at hcs
    simp at hcs
  have hanyT : tk.toList.any (fun kv => kv.1 == ("tensions".toList)) =
      (assocFind tk.toList ("tensions".toList)).isSome := (assocFind_isSome_any _ _).symm
  have hanyC : tk.toList.any (fun kv => kv.1 == ("consensus".toList)) =
      (assocFind tk.toList ("consensus".toList)).isSome := (assocFind_isSome_any _ _).symm
  have hppCases : assocFind tk.toList ("party_positions".toList) = none ∨
      ∃ ps, assocFind tk.toList ("party_positions".toList) = some (.arr ps) := by
    rcases hpp : assocFind tk.toList ("party_positions".toList) with _ | ppv
    · exact Or.inl rfl
    · rw [hpp] at hpp0
      rcases ppv with _ | b | l | s2 | ps | kvs2 <;> simp at hpp0
      exact Or.inr ⟨ps, rfl⟩
  cases hmem : (assocFind st nm).isNone <;>
  rcases hppCases with hpp | ⟨ps, hpp⟩ <;>
  rcases hts : assocFind tk.toList ("tensions".toList) with _ | tv <;>
  rcases hcns : assocFind tk.toList ("consensus".toList) with _ | cv <;>
    simp only [mergeTopicStep, pyGetItemKey, pyGet, pyIter, pyContains, jGet, objFind,
      hnm, hds, hcn, hts, hcns, hpp, hanyT, hanyC, hmem, exceptBind_ok, exceptBind_err,
      exceptPure, Option.isNone_some, Option.isNone_none, Option.isSome_some,
      Option.isSome_none, Option.getD_some, Option.getD_none, List.append_nil,
      if_true, if_false, Bool.false_eq_true,
      eq_self_iff_true, JsonArr.toList, addTopic, tiName, tiDesc, tiPositions,
      tiTensions, tiConsensus, sChunkNum]

theorem topicsFoldM_eq (cs : JsonVal) (hcs : (jGet cs ("chunk_number".toList)).isSome)
    (items : List JsonVal) (hall : ∀ ti ∈ items, wfTopic ti = true) :
    ∀ st0, items.foldlM (mergeTopicStep cs) st0 =
      .ok (items.foldl (fun st ti => addTopic st (sChunkNum cs, ti)) st0) := by
  induction items with
  | nil => intro st0; rfl
  | cons ti rest ih =>
    intro st0
    rw [List.foldlM_cons, mergeTopicStep_eq cs ti st0 (hall ti (List.mem_cons_self ti rest)) hcs,
      exceptBind_ok, ih (fun x hx => hall x (List.mem_cons_of_mem ti hx)), List.foldl_cons]

theorem fcFold_ok (fcs : List JsonVal)
    (hall : ∀ f ∈ fcs, (match f with | JsonVal.obj _ => true | _ => false) = true) :
    ∀ acc, ∃ r, fcs.foldlM fcStep acc = .ok r := by
  induction fcs with
  | nil => intro acc; exact ⟨acc, rfl⟩
  | cons f rest ih =>
    intro acc
    have hf := hall f (List.mem_cons_self f rest)
    obtain ⟨o, rfl⟩ : ∃ o, f = JsonVal.obj o := by
      cases f <;> simp at hf
      exact ⟨_, rfl⟩
    obtain ⟨r, hr⟩ := ih (fun x hx => hall x (List.mem_cons_of_mem _ hx))
      (if ((objFind o ("confidence".toList)).getD (.str ("LOW".toList))) =
            JsonVal.str ("MEDIUM".toList) ∨
          ((objFind o ("confidence".toList)).getD (.str ("LOW".toList))) =
            JsonVal.str ("HIGH".toList)
       then acc ++ [JsonVal.obj o] else acc)
    refine ⟨r, ?_⟩
    rw [List.foldlM_cons]
    simp only [fcStep, pyGet, exceptBind_ok, exceptPure]
    exact hr

theorem sTopics_none {ck : JsonObj} (h : assocFind ck.toList ("topics".toList) = none) :
    sTopics (.obj ck) = [] := by
  simp only [sTopics, jGet, objFind, h]

theorem sTopics_arr {ck : JsonObj} {ts : JsonArr}
    (h : assocFind ck.toList ("topics".toList) = some (.arr ts)) :
    sTopics (.obj ck) = ts.toList := by
  simp only [sTopics, jGet, objFind, h]

set_option maxHeartbeats 1600000 in
theorem mergeSummaryStep_eq (st : MergeResult) (cs : JsonVal) (hwf : wfSummary cs = true) :
    ∃ st', mergeSummaryStep st cs = .ok st' ∧
      st'.allTopics =
        ((sTopics cs).map (fun ti => (sChunkNum cs, ti))).foldl addTopic st.allTopics := by
  have hcn0 : (jGet cs ("chunk_number".toList)).isSome := by
    simp only [wfSummary, Bool.and_eq_true] at hwf
    exact hwf.1.1.1.1
  obtain ⟨ck, rfl⟩ := jGet_isSome_obj hcn0
  simp only [wfSummary, Bool.and_eq_true] at hwf
  obtain ⟨⟨⟨⟨hcn, htp⟩, hkd⟩, hne⟩, hfc⟩ := hwf
  simp only [jGet, objFind] at htp hkd hne hfc
  have hany : (ck.toList.any (fun kv => kv.1 == ("topics".toList))) =
      (assocFind ck.toList ("topics".toList)).isSome := (assocFind_isSome_any _ _).symm
  have htpCases : (assocFind ck.toList ("topics".toList) = none) ∨
      (∃ ts : JsonArr, assocFind ck.toList ("topics".toList) = some (.arr ts) ∧
        ∀ ti ∈ ts.toList, wfTopic ti = true) := by
    rcases h : assocFind ck.toList ("topics".toList) with _ | v
    · exact Or.inl rfl
    · rw [h] at htp
      rcases v with _ | b | l | s2 | ts | kvs2
      · exact absurd htp Bool.false_ne_true
      · exact absurd htp Bool.false_ne_true
      · exact absurd htp Bool.false_ne_true
      · exact absurd htp Bool.false_ne_true
      · exact Or.inr ⟨ts, rfl, all_get ts.toList htp⟩
      · exact absurd htp Bool.false_ne_true
  have hkdCases : (assocFind ck.toList ("key_decisions".toList) = none) ∨
      (∃ ks : JsonArr, assocFind ck.toList ("key_decisions".toList) = some (.arr ks)) := by
    rcases h : assocFind ck.toList ("key_decisions".toList) with _ | v
    · exact Or.inl rfl
    · rw [h] at hkd
      rcases v with _ | b | l | s2 | ks | kvs2
      · exact absurd hkd Bool.false_ne_true
      · exact absurd hkd Bool.false_ne_true
      · exact absurd hkd Bool.false_ne_true
      · exact absurd hkd Bool.false_ne_true
      · exact Or.inr ⟨ks, rfl⟩
      · exact absurd hkd Bool.false_ne_true
  have hneCases : (assocFind ck.toList ("notable_exchanges".toList) = none) ∨
      (∃ ns : JsonArr, assocFind ck.toList ("notable_exchanges".toList) = some (.arr ns)) := by
    rcases h : assocFind ck.toList ("notable_exchanges".toList) with _ | v
    · exact Or.inl rfl
    · rw [h] at hne
      rcases v with _ | b | l | s2 | ns | kvs2
      · exact absurd hne Bool.false_ne_true
      · exact absurd hne Bool.false_ne_true
      · exact absurd hne Bool.false_ne_true
      · exact absurd hne Bool.false_ne_true
      · exact Or.inr ⟨ns, rfl⟩
      · exact absurd hne Bool.false_ne_true
  have hfcCases : (assocFind ck.toList ("fact_check_flags".toList) = none) ∨
      (∃ fs : JsonArr, assocFind ck.toList ("fact_check_flags".toList) = some (.arr fs) ∧
        ∀ f ∈ fs.toList, (match f with | JsonVal.obj _ => true | _ => false) = true) := by
    rcases h : assocFind ck.toList ("fact_check_flags".toList) with _ | v
    · exact Or.inl rfl
    · rw [h] at hfc
      rcases v with _ | b | l | s2 | fs | kvs2
      · exact absurd hfc Bool.false_ne_true
      · exact absurd hfc Bool.false_ne_true
      · exact absurd hfc Bool.false_ne_true
      · exact absurd hfc Bool.false_ne_true
      · exact Or.inr ⟨fs, rfl, all_get fs.toList hfc⟩
      · exact absurd hfc Bool.false_ne_true
  rcases htpCases with htpv | ⟨ts, htpv, hallwf⟩ <;>
  rcases hkdCases with hkdv | ⟨ks, hkdv⟩ <;>
  rcases hneCases with hnev | ⟨ns, hnev⟩ <;>
  rcases hfcCases with hfcv | ⟨fs, hfcv, hallfc⟩ <;>
    simp only [mergeSummaryStep, pyContains, pyGetItemKey, pyGet, pyIter, objFind,
      hany, htpv, hkdv, hnev, hfcv, Option.isSome_some, Option.isSome_none,
      Option.getD_some, Option.getD_none, exceptBind_ok, exceptBind_err, exceptPure,
      if_true, if_false, Bool.false_eq_true, eq_self_iff_true, JsonArr.toList]
  all_goals try rw [topicsFoldM_eq (.obj ck) hcn0 ts.toList hallwf st.allTopics]
  all_goals try simp only [exceptBind_ok, exceptPure]
  all_goals try (obtain ⟨r, hrf⟩ := fcFold_ok fs.toList hallfc st.allFactChecks; rw [hrf])
  all_goals try simp only [exceptBind_ok, exceptPure]
  all_goals refine ⟨_, rfl, ?_⟩
  all_goals first
    | (rw [sTopics_none htpv]
       try simp only [List.map_nil, List.foldl_nil]
       try rfl)
    | (rw [sTopics_arr htpv, List.foldl_map]
       try rfl)

theorem mergePassAux (summaries : List JsonVal)
    (hall : ∀ s ∈ summaries, wfSummary s = true) :
    ∀ st : MergeResult, ∃ st', summaries.foldlM mergeSummaryStep st = .ok st' ∧
      st'.allTopics = (topicOccurrences summaries).foldl addTopic st.allTopics := by
  induction summaries with
  | nil => intro st; exact ⟨st, rfl, rfl⟩
  | cons s rest ih =>
    intro st
    obtain ⟨st1, h1, h1t⟩ := mergeSummaryStep_eq st s (hall s (List.mem_cons_self s rest))
    obtain ⟨st', h2, h2t⟩ := ih (fun x hx => hall x (List.mem_cons_of_mem s hx)) st1
    refine ⟨st', ?_, ?_⟩
    · rw [List.foldlM_cons, h1, exceptBind_ok, h2]
    · rw [h2t, h1t]
      have hocc : topicOccurrences (s :: rest) =
          (sTopics s).map (fun ti => (sChunkNum s, ti)) ++ topicOccurrences rest := by
        simp [topicOccurrences]
      rw [hocc, List.foldl_append]

theorem mergePass_topics (summaries : List JsonVal)
    (hall : ∀ s ∈ summaries, wfSummary s = true) :
    ∃ m, mergePass summaries = .ok m ∧
      m.allTopics = (topicOccurrences summaries).foldl addTopic [] := by
  obtain ⟨m, hm, hmt⟩ := mergePassAux summaries hall ⟨[], [], [], [], []⟩
  exact ⟨m, hm, hmt⟩

theorem assocFind_append {α β : Type} [DecidableEq α] (xs ys : List (α × β)) (k : α) :
    assocFind (xs ++ ys) k =
      match assocFind xs k with
      | some v => some v
      | none => assocFind ys k := by
  induction xs with
  | nil => rfl
  | cons kv rest ih =>
    obtain ⟨a, v⟩ := kv
    show (if a = k then some v else assocFind (rest ++ ys) k) =
      match (if a = k then some v else assocFind rest k) with
      | some v => some v
      | none => assocFind ys k
    by_cases h : a = k
    · rw [if_pos h, if_pos h]
    · rw [if_neg h, if_neg h, ih]

theorem assocFind_update_self {α β : Type} [DecidableEq α] (kvs : List (α × β)) (k : α)
    (f : β → β) :
    assocFind (assocUpdate kvs k f) k = (assocFind kvs k).map f := by
  induction kvs with
  | nil => rfl
  | cons kv rest ih =>
    obtain ⟨a, v⟩ := kv
    by_cases h : a = k
    · show assocFind (if a = k then (a, f v) :: rest else (a, v) :: assocUpdate rest k f) k = _
      rw [if_pos h]
      show (if a = k then some (f v) else assocFind rest k) =
        (if a = k then some v else assocFind rest k).map f
      rw [if_pos h, if_pos h, Option.map_some']
    · show assocFind (if a = k then (a, f v) :: rest else (a, v) :: assocUpdate rest k f) k = _
      rw [if_neg h]
      show (if a = k then some v else assocFind (assocUpdate rest k f) k) =
        (if a = k then some v else assocFind rest k).map f
      rw [if_neg h, if_neg h, ih]

theorem assocFind_update_ne {α β : Type} [DecidableEq α] (kvs : List (α × β)) (k' k : α)
    (f : β → β) (h : k' ≠ k) :
    assocFind (assocUpdate kvs k' f) k = assocFind kvs k := by
  induction kvs with
  | nil => rfl
  | cons kv rest ih =>
    obtain ⟨a, v⟩ := kv
    by_cases ha : a = k'
    · show assocFind (if a = k' then (a, f v) :: rest else (a, v) :: assocUpdate rest k' f) k = _
      rw [if_pos ha]
      show (if a = k then some (f v) else assocFind rest k) =
        (if a = k then some v else assocFind rest k)
      have hak : a ≠ k := by
        rw [ha]
        exact h
      rw [if_neg hak, if_neg hak]
    · show assocFind (if a = k' then (a, f v) :: rest else (a, v) :: assocUpdate rest k' f) k = _
      rw [if_neg ha]
      show (if a = k then some v else assocFind (assocUpdate rest k' f) k) =
        (if a = k then some v else assocFind rest k)
      by_cases hak : a = k
      · rw [if_pos hak, if_pos hak]
      · rw [if_neg hak, if_neg hak, ih]

theorem addTopic_find_self (st : List (JsonVal × MergedTopic)) (oc : JsonVal × JsonVal) :
    assocFind (addTopic st oc) (tiName oc.2) =
      some (match assocFind st (tiName oc.2) with
            | none => newTopic oc
            | some mt => extendTopic mt oc) := by
  cases hm : assocFind st (tiName oc.2) with
  | none =>
    simp only [addTopic, hm, Option.isNone_none, if_true]
    rw [assocFind_update_self, assocFind_append, hm]
    show (assocFind [(tiName oc.2, (⟨tiDesc oc.2, [], [], [], []⟩ : MergedTopic))]
      (tiName oc.2)).map _ = _
    show (if tiName oc.2 = tiName oc.2 then
        some (⟨tiDesc oc.2, [], [], [], []⟩ : MergedTopic) else none).map _ = _
    rw [if_pos rfl, Option.map_some']
    show some ⟨tiDesc oc.2, [] ++ tiPositions oc.2, [] ++ [oc.1], [] ++ tiTensions oc.2,
      [] ++ tiConsensus oc.2⟩ = some (newTopic oc)
    rw [List.nil_append, List.nil_append, List.nil_append, List.nil_append]
    rfl
  | some mt =>
    simp only [addTopic, hm, Option.isNone_some, Bool.false_eq_true, if_false]
    rw [assocFind_update_self, hm, Option.map_some']
    rfl

theorem addTopic_find_ne (st : List (JsonVal × MergedTopic)) (oc : JsonVal × JsonVal)
    (k : JsonVal) (h : tiName oc.2 ≠ k) :
    assocFind (addTopic st oc) k = assocFind st k := by
  show assocFind (assocUpdate _ (tiName oc.2) _) k = _
  rw [assocFind_update_ne _ _ _ _ h]
  cases hm : assocFind st (tiName oc.2) with
  | none =>
    simp only [hm, Option.isNone_none, if_true]
    rw [assocFind_append]
    cases hsk : assocFind st k with
    | none =>
      show assocFind [(tiName oc.2, _)] k = none
      show (if tiName oc.2 = k then some _ else none) = none
      rw [if_neg h]
    | some v => rfl
  | some mt =>
    simp only [hm, Option.isNone_some, Bool.false_eq_true, if_false]

theorem foldl_addTopic_find (occs : List (JsonVal × JsonVal)) :
    ∀ (st : List (JsonVal × MergedTopic)) (k : JsonVal),
      assocFind (occs.foldl addTopic st) k =
        match assocFind st k, occs.filter (fun oc => tiName oc.2 == k) with
        | none, [] => none
        | none, oc0 :: rest => some (rest.foldl extendTopic (newTopic oc0))
        | some mt, fil => some (fil.foldl extendTopic mt) := by
  induction occs with
  | nil =>
    intro st k
    simp only [List.foldl_nil, List.filter_nil]
    cases hsk : assocFind st k with
    | none => rfl
    | some mt => rfl
  | cons oc rest ih =>
    intro st k
    rw [List.foldl_cons, ih]
    by_cases hk : tiName oc.2 = k
    · have hfil : (oc :: rest).filter (fun oc => tiName oc.2 == k) =
          oc :: rest.filter (fun oc => tiName oc.2 == k) := by
        simp [List.filter_cons, hk]
      rw [hfil]
      subst hk
      rw [addTopic_find_self]
      cases hm : assocFind st (tiName oc.2) with
      | none => rfl
      | some mt =>
        show some ((rest.filter _).foldl extendTopic (extendTopic mt oc)) =
          some ((oc :: rest.filter _).foldl extendTopic mt)
        rw [List.foldl_cons]
    · have hfil : (oc :: rest).filter (fun oc => tiName oc.2 == k) =
          rest.filter (fun oc => tiName oc.2 == k) := by
        simp [List.filter_cons, hk]
      rw [hfil, addTopic_find_ne st oc k hk]

theorem assocUpdate_keys {α β : Type} [DecidableEq α] (kvs : List (α × β)) (k : α)
    (f : β → β) :
    (assocUpdate kvs k f).map Prod.fst = kvs.map Prod.fst := by
  induction kvs with
  | nil => rfl
  | cons kv rest ih =>
    obtain ⟨a, v⟩ := kv
    by_cases h : a = k
    · show ((if a = k then (a, f v) :: rest else (a, v) :: assocUpdate rest k f).map Prod.fst) = _
      rw [if_pos h, List.map_cons, List.map_cons]
    · show ((if a = k then (a, f v) :: rest else (a, v) :: assocUpdate rest k f).map Prod.fst) = _
      rw [if_neg h, List.map_cons, ih, List.map_cons]

theorem assocFind_none_not_mem {α β : Type} [DecidableEq α] :
    ∀ (kvs : List (α × β)) (k : α), assocFind kvs k = none → k ∉ kvs.map Prod.fst
  | [], k, _ => by simp
  | (a, v) :: rest, k, h => by
    by_cases ha : a = k
    · rw [show assocFind ((a, v) :: rest) k = if a = k then some v else assocFind rest k from rfl,
        if_pos ha] at h
      exact Option.noConfusion h
    · rw [show assocFind ((a, v) :: rest) k = if a = k then some v else assocFind rest k from rfl,
        if_neg ha] at h
      simp only [List.map_cons, List.mem_cons]
      rintro (hk | hk)
      · exact ha hk.symm
      · exact assocFind_none_not_mem rest k h hk

theorem addTopic_keys_nodup (st : List (JsonVal × MergedTopic)) (oc : JsonVal × JsonVal)
    (h : (st.map Prod.fst).Nodup) :
    ((addTopic st oc).map Prod.fst).Nodup := by
  show ((assocUpdate _ (tiName oc.2) _).map Prod.fst).Nodup
  rw [assocUpdate_keys]
  cases hm : assocFind st (tiName oc.2) with
  | some mt =>
    simp only [hm, Option.isNone_some, Bool.false_eq_true, if_false]
    exact h
  | none =>
    simp only [hm, Option.isNone_none, if_true, List.map_append, List.map_cons, List.map_nil]
    refine List.nodup_append.mpr ⟨h, List.nodup_singleton _, ?_⟩
    intro x hx hx2
    rw [List.mem_singleton] at hx2
    subst hx2
    exact assocFind_none_not_mem st (tiName oc.2) hm hx

theorem foldl_addTopic_nodup (occs : List (JsonVal × JsonVal)) :
    ∀ st : List (JsonVal × MergedTopic), (st.map Prod.fst).Nodup →
      ((occs.foldl addTopic st).map Prod.fst).Nodup := by
  induction occs with
  | nil => intro st h; exact h
  | cons oc rest ih =>
    intro st h
    rw [List.foldl_cons]
    exact ih _ (addTopic_keys_nodup st oc h)

theorem foldl_extendTopic_description (l : List (JsonVal × JsonVal)) :
    ∀ mt : MergedTopic, (l.foldl extendTopic mt).description = mt.description := by
  induction l with
  | nil => intro mt; rfl
  | cons oc rest ih =>
    intro mt
    rw [List.foldl_cons, ih]
    rfl

theorem foldl_extendTopic_positions (l : List (JsonVal × JsonVal)) :
    ∀ mt : MergedTopic, (l.foldl extendTopic mt).party_positions =
      mt.party_positions ++ l.flatMap (fun oc => tiPositions oc.2) := by
  induction l with
  | nil => intro mt; rw [List.foldl_nil, List.flatMap_nil, List.append_nil]
  | cons oc rest ih =>
    intro mt
    rw [List.foldl_cons, ih, List.flatMap_cons]
    show mt.party_positions ++ tiPositions oc.2 ++ _ = _
    rw [List.append_assoc]

theorem foldl_extendTopic_chunks (l : List (JsonVal × JsonVal)) :
    ∀ mt : MergedTopic, (l.foldl extendTopic mt).mentioned_in_chunks =
      mt.mentioned_in_chunks ++ l.map Prod.fst := by
  induction l with
  | nil => intro mt; rw [List.foldl_nil, List.map_nil, List.append_nil]
  | cons oc rest ih =>
    intro mt
    rw [List.foldl_cons, ih, List.map_cons]
    show mt.mentioned_in_chunks ++ [oc.1] ++ _ = _
    rw [List.append_assoc]
    rfl

/-- C7: on well-formed chunk summaries the merge pass of
`combine_chunk_summaries` succeeds, iterates the summaries in input order, and
merges topics by exact (case-sensitive) name equality: the resulting topic
dict has pairwise distinct names (identical names are never two entries); a
name absent from all summaries is absent from the dict; and the entry of a
present name takes its `description` from the FIRST occurrence of that name
(first-wins), its `party_positions` as the concatenation, without
deduplication and in occurrence order, of every occurrence's
`party_positions`, and its `mentioned_in_chunks` as the occurrences' chunk
numbers in order. -/
theorem C7_merge_first_wins (summaries : List JsonVal)
    (hall : ∀ s ∈ summaries, wfSummary s = true) :
    ∃ m, mergePass summaries = .ok m ∧
      (m.allTopics.map Prod.fst).Nodup ∧
      ∀ k : JsonVal,
        match (topicOccurrences summaries).filter (fun oc => tiName oc.2 == k) with
        | [] => assocFind m.allTopics k = none
        | oc0 :: rest =>
          ∃ mt, assocFind m.allTopics k = some mt ∧
            mt.description = tiDesc oc0.2 ∧
            mt.party_positions =
              tiPositions oc0.2 ++ rest.flatMap (fun oc => tiPositions oc.2) ∧
            mt.mentioned_in_chunks = oc0.1 :: rest.map Prod.fst := by
  obtain ⟨m, hm, hmt⟩ := mergePass_topics summaries hall
  refine ⟨m, hm, ?_, ?_⟩
  · rw [hmt]
    exact foldl_addTopic_nodup _ [] (by simp)
  · intro k
    have hfind := foldl_addTopic_find (topicOccurrences summaries) [] k
    cases hfil : (topicOccurrences summaries).filter (fun oc => tiName oc.2 == k) with
    | nil =>
      rw [hfil] at hfind
      show assocFind m.allTopics k = none
      rw [hmt]
      exact hfind.trans rfl
    | cons oc0 rest =>
      rw [hfil] at hfind
      have hfind' : assocFind m.allTopics k = some (rest.foldl extendTopic (newTopic oc0)) := by
        rw [hmt]
        exact hfind.trans rfl
      refine ⟨_, hfind', ?_, ?_, ?_⟩
      · rw [foldl_extendTopic_description]
        rfl
      · rw [foldl_extendTopic_positions]
        rfl
      · rw [foldl_extendTopic_chunks]
        rfl

/-- Witness for C7 at a concrete two-summary input. -/
theorem C7_merge_first_wins_witness :
    (∀ s ∈ [wSum1, wSum2], wfSummary s = true) ∧
    (∃ m, mergePass [wSum1, wSum2] = .ok m ∧
      (m.allTopics.map Prod.fst).Nodup ∧
      ∀ k : JsonVal,
        match (topicOccurrences [wSum1, wSum2]).filter (fun oc => tiName oc.2 == k) with
        | [] => assocFind m.allTopics k = none
        | oc0 :: rest =>
          ∃ mt, assocFind m.allTopics k = some mt ∧
            mt.description = tiDesc oc0.2 ∧
            mt.party_positions =
              tiPositions oc0.2 ++ rest.flatMap (fun oc => tiPositions oc.2) ∧
            mt.mentioned_in_chunks = oc0.1 :: rest.map Prod.fst) :=
  ⟨by decide, C7_merge_first_wins [wSum1, wSum2] (by decide)⟩

theorem suffix_drop (n : Nat) (l : List Char) : ∃ pre, l = pre ++ l.drop n :=
  ⟨l.take n, (List.take_append_drop n l).symm⟩

theorem suffix_dropWhile (p : Char → Bool) (l : List Char) :
    ∃ pre, l = pre ++ l.dropWhile p :=
  ⟨l.takeWhile p, (List.takeWhile_append_dropWhile (p := p) (l := l)).symm⟩

set_option maxHeartbeats 2000000 in
theorem parseStrBody_suffix : ∀ (fuel : Nat) (cs : List Char) (s r : List Char),
    parseStrBody fuel cs = some (s, r) → ∃ pre, cs = pre ++ r
  | 0, cs, s, r, h => by
    cases cs <;> simp [parseStrBody] at h
  | fuel+1, [], s, r, h => by
    simp [parseStrBody] at h
  | fuel+1, c :: rest, s, r, h => by
    simp only [parseStrBody] at h
    split at h
    · -- c = '"'
      cases h
      exact ⟨[c], rfl⟩
    · split at h
      · -- c = '\'
        split at h
        · -- rest = []
          exact Option.noConfusion h
        · rename_i e r2
          split at h
          · -- e = 'u'
            split at h
            · rename_i h1 h2 h3 h4 r3
              split at h
              · -- all four hex digits valid
                rcases hsb : parseStrBody fuel r3 with _ | ⟨s2, r4⟩
                · rw [hsb] at h
                  exact Option.noConfusion h
                · rw [hsb] at h
                  cases h
                  obtain ⟨pre, hp⟩ := parseStrBody_suffix fuel r3 s2 r hsb
                  exact ⟨c :: e :: h1 :: h2 :: h3 :: h4 :: pre, by simp [hp]⟩
              · exact Option.noConfusion h
            · exact Option.noConfusion h
          · -- simple escape table
            split at h
            · -- escape resolves to a character
              rcases hsb : parseStrBody fuel r2 with _ | ⟨s2, r4⟩
              · rw [hsb] at h
                exact Option.noConfusion h
              · rw [hsb] at h
                cases h
                obtain ⟨pre, hp⟩ := parseStrBody_suffix fuel r2 s2 r hsb
                exact ⟨c :: e :: pre, by simp [hp]⟩
            · exact Option.noConfusion h
      · split at h
        · -- control character
          exact Option.noConfusion h
        · -- ordinary character
          rcases hsb : parseStrBody fuel rest with _ | ⟨s2, r4⟩
          · rw [hsb] at h
            exact Option.noConfusion h
          · rw [hsb] at h
            cases h
            obtain ⟨pre, hp⟩ := parseStrBody_suffix fuel rest s2 r hsb
            exact ⟨c :: pre, by simp [hp]⟩

theorem suffix_trans {a b c : List Char} (h1 : ∃ p, a = p ++ b) (h2 : ∃ q, b = q ++ c) :
    ∃ t, a = t ++ c := by
  obtain ⟨p, hp⟩ := h1
  obtain ⟨q, hq⟩ := h2
  exact ⟨p ++ q, by rw [hp, hq, List.append_assoc]⟩

theorem suffix_cons {rest r : List Char} (c : Char) (h : ∃ p, rest = p ++ r) :
    ∃ p, c :: rest = p ++ r := by
  obtain ⟨p, hp⟩ := h
  exact ⟨c :: p, by simp [hp]⟩

theorem suffix_of_dropWhile_cons {p : Char → Bool} {l r : List Char} {c : Char}
    (h : l.dropWhile p = c :: r) : ∃ pre, l = pre ++ r := by
  obtain ⟨pre, hp⟩ := suffix_dropWhile p l
  exact ⟨pre ++ [c], by rw [hp, h]; simp⟩

set_option maxHeartbeats 2000000 in
mutual

theorem parseValue_suffix : ∀ (fuel : Nat) (cs : List Char) (v : JsonVal) (r : List Char),
    parseValue fuel cs = some (v, r) → ∃ pre, cs = pre ++ r
  | 0, cs, v, r, h => by simp [parseValue] at h
  | fuel+1, cs, v, r, h => by
    simp only [parseValue] at h
    split at h
    · exact Option.noConfusion h
    · -- cs = '"' :: rest
      rename_i rest
      split at h
      · rename_i s2 r2 hsb
        cases h
        exact suffix_cons _ (parseStrBody_suffix _ rest s2 r hsb)
      · exact Option.noConfusion h
    · -- cs = '{' :: rest
      rename_i rest
      exact suffix_cons _ (parseObjBody_suffix fuel rest v r h)
    · -- cs = '[' :: rest
      rename_i rest
      exact suffix_cons _ (parseArrBody_suffix fuel rest v r h)
    · -- literals and numbers
      split at h
      · cases h
        exact suffix_drop 4 _
      · split at h
        · cases h
          exact suffix_drop 5 _
        · split at h
          · cases h
            exact suffix_drop 4 _
          · split at h
            · cases h
              exact suffix_drop 3 _
            · split at h
              · cases h
                exact suffix_drop 8 _
              · split at h
                · cases h
                  exact suffix_drop 9 _
                · split at h
                  · exact Option.noConfusion h
                  · cases h
                    exact suffix_drop _ _

theorem parseObjBody_suffix : ∀ (fuel : Nat) (cs : List Char) (v : JsonVal) (r : List Char),
    parseObjBody fuel cs = some (v, r) → ∃ pre, cs = pre ++ r
  | 0, cs, v, r, h => by simp [parseObjBody] at h
  | fuel+1, cs, v, r, h => by
    simp only [parseObjBody] at h
    split at h
    · rename_i r2 heq
      cases h
      exact suffix_of_dropWhile_cons heq
    · exact suffix_trans (suffix_dropWhile isJWs cs)
        (parseMembers_suffix fuel (cs.dropWhile isJWs) [] v r h)

theorem parseMembers_suffix : ∀ (fuel : Nat) (cs : List Char)
    (acc : List (List Char × JsonVal)) (v : JsonVal) (r : List Char),
    parseMembers fuel cs acc = some (v, r) → ∃ pre, cs = pre ++ r
  | 0, cs, acc, v, r, h => by simp [parseMembers] at h
  | fuel+1, cs, acc, v, r, h => by
    simp only [parseMembers] at h
    split at h
    · -- cs = '"' :: rest
      rename_i rest
      split at h
      · -- key string parsed
        rename_i k r1 hsb
        split at h
        · -- colon found
          rename_i r2 heqc
          split at h
          · -- member value parsed
            rename_i v2 r3 hpv
            split at h
            · -- comma: continue members
              rename_i r4 heq4
              refine suffix_cons _ (suffix_trans (parseStrBody_suffix _ rest k r1 hsb)
                (suffix_trans (suffix_of_dropWhile_cons heqc)
                  (suffix_trans (suffix_dropWhile isJWs r2)
                    (suffix_trans (parseValue_suffix fuel _ v2 r3 hpv)
                      (suffix_trans (suffix_of_dropWhile_cons heq4)
                        (suffix_trans (suffix_dropWhile isJWs r4)
                          (parseMembers_suffix fuel (r4.dropWhile isJWs) _ v r h)))))))
            · -- closing brace: done
              rename_i r4 heq4
              cases h
              exact suffix_cons _ (suffix_trans (parseStrBody_suffix _ rest k r1 hsb)
                (suffix_trans (suffix_of_dropWhile_cons heqc)
                  (suffix_trans (suffix_dropWhile isJWs r2)
                    (suffix_trans (parseValue_suffix fuel _ v2 r3 hpv)
                      (suffix_of_dropWhile_cons heq4)))))
            · exact Option.noConfusion h
          · exact Option.noConfusion h
        · exact Option.noConfusion h
      · exact Option.noConfusion h
    · exact Option.noConfusion h

theorem parseArrBody_suffix : ∀ (fuel : Nat) (cs : List Char) (v : JsonVal) (r : List Char),
    parseArrBody fuel cs = some (v, r) → ∃ pre, cs = pre ++ r
  | 0, cs, v, r, h => by simp [parseArrBody] at h
  | fuel+1, cs, v, r, h => by
    simp only [parseArrBody] at h
    split at h
    · rename_i r2 heq
      cases h
      exact suffix_of_dropWhile_cons heq
    · exact suffix_trans (suffix_dropWhile isJWs cs)
        (parseElems_suffix fuel (cs.dropWhile isJWs) [] v r h)

theorem parseElems_suffix : ∀ (fuel : Nat) (cs : List Char) (acc : List JsonVal)
    (v : JsonVal) (r : List Char),
    parseElems fuel cs acc = some (v, r) → ∃ pre, cs = pre ++ r
  | 0, cs, acc, v, r, h => by simp [parseElems] at h
  | fuel+1, cs, acc, v, r, h => by
    simp only [parseElems] at h
    split at h
    · rename_i v2 r1 hpv
      split at h
      · -- comma: continue elements
        rename_i r2 heq2
        exact suffix_trans (parseValue_suffix fuel cs v2 r1 hpv)
          (suffix_trans (suffix_of_dropWhile_cons heq2)
            (suffix_trans (suffix_dropWhile isJWs r2)
              (parseElems_suffix fuel (r2.dropWhile isJWs) _ v r h)))
      · -- closing bracket: done
        rename_i r2 heq2
        cases h
        exact suffix_trans (parseValue_suffix fuel cs v2 r1 hpv)
          (suffix_of_dropWhile_cons heq2)
      · exact Option.noConfusion h
    · exact Option.noConfusion h

end

theorem suffix_keep_of_dropWhile {p : Char → Bool} {l r : List Char} {c : Char}
    (h : l.dropWhile p = c :: r) : ∃ pre, l = pre ++ c :: r := by
  obtain ⟨pre, hp⟩ := suffix_dropWhile p l
  exact ⟨pre, by rw [hp, h]⟩

set_option maxHeartbeats 2000000 in
theorem parseMembers_ends : ∀ (fuel : Nat) (cs : List Char)
    (acc : List (List Char × JsonVal)) (v : JsonVal) (r : List Char),
    parseMembers fuel cs acc = some (v, r) → ∃ pre, cs = pre ++ '}' :: r
  | 0, cs, acc, v, r, h => by simp [parseMembers] at h
  | fuel+1, cs, acc, v, r, h => by
    simp only [parseMembers] at h
    split at h
    · rename_i rest
      split at h
      · rename_i k r1 hsb
        split at h
        · rename_i r2 heqc
          split at h
          · rename_i v2 r3 hpv
            split at h
            · rename_i r4 heq4
              refine suffix_cons _ (suffix_trans (parseStrBody_suffix _ rest k r1 hsb)
                (suffix_trans (suffix_of_dropWhile_cons heqc)
                  (suffix_trans (suffix_dropWhile isJWs r2)
                    (suffix_trans (parseValue_suffix fuel _ v2 r3 hpv)
                      (suffix_trans (suffix_of_dropWhile_cons heq4)
                        (suffix_trans (suffix_dropWhile isJWs r4)
                          (parseMembers_ends fuel (r4.dropWhile isJWs) _ v r h)))))))
            · rename_i r4 heq4
              cases h
              exact suffix_cons _ (suffix_trans (parseStrBody_suffix _ rest k r1 hsb)
                (suffix_trans (suffix_of_dropWhile_cons heqc)
                  (suffix_trans (suffix_dropWhile isJWs r2)
                    (suffix_trans (parseValue_suffix fuel _ v2 r3 hpv)
                      (suffix_keep_of_dropWhile heq4)))))
            · exact Option.noConfusion h
          · exact Option.noConfusion h
        · exact Option.noConfusion h
      · exact Option.noConfusion h
    · exact Option.noConfusion h

theorem parseObjBody_ends (fuel : Nat) (cs : List Char) (v : JsonVal) (r : List Char)
    (h : parseObjBody fuel cs = some (v, r)) : ∃ pre, cs = pre ++ '}' :: r := by
  cases fuel with
  | zero => simp [parseObjBody] at h
  | succ fuel =>
    simp only [parseObjBody] at h
    split at h
    · rename_i r2 heq
      cases h
      exact suffix_keep_of_dropWhile heq
    · exact suffix_trans (suffix_dropWhile isJWs cs)
        (parseMembers_ends fuel (cs.dropWhile isJWs) [] v r h)

set_option maxHeartbeats 2000000 in
theorem parseElems_shape : ∀ (fuel : Nat) (cs : List Char) (acc : List JsonVal)
    (v : JsonVal) (r : List Char),
    parseElems fuel cs acc = some (v, r) → ∃ xs, v = .arr xs
  | 0, cs, acc, v, r, h => by simp [parseElems] at h
  | fuel+1, cs, acc, v, r, h => by
    simp only [parseElems] at h
    split at h
    · rename_i v2 r1 hpv
      split at h
      · rename_i r2 heq2
        exact parseElems_shape fuel (r2.dropWhile isJWs) _ v r h
      · rename_i r2 heq2
        cases h
        exact ⟨_, rfl⟩
      · exact Option.noConfusion h
    · exact Option.noConfusion h

theorem parseArrBody_shape (fuel : Nat) (cs : List Char) (v : JsonVal) (r : List Char)
    (h : parseArrBody fuel cs = some (v, r)) : ∃ xs, v = .arr xs := by
  cases fuel with
  | zero => simp [parseArrBody] at h
  | succ fuel =>
    simp only [parseArrBody] at h
    split at h
    · rename_i r2 heq
      cases h
      exact ⟨_, rfl⟩
    · exact parseElems_shape fuel (cs.dropWhile isJWs) [] v r h

set_option maxHeartbeats 2000000 in
theorem parseValue_obj_shape (fuel : Nat) (cs : List Char) (o : JsonObj) (r : List Char)
    (h : parseValue fuel cs = some (.obj o, r)) :
    ∃ fuel2 tl, cs = '{' :: tl ∧ parseObjBody fuel2 tl = some (.obj o, r) := by
  cases fuel with
  | zero => simp [parseValue] at h
  | succ fuel =>
    simp only [parseValue] at h
    split at h
    · exact Option.noConfusion h
    · rename_i rest
      split at h
      · simp at h
      · exact Option.noConfusion h
    · rename_i rest
      exact ⟨fuel, rest, rfl, h⟩
    · rename_i rest
      obtain ⟨xs, hxs⟩ := parseArrBody_shape fuel rest _ r h
      exact absurd hxs (by simp)
    · split at h
      · simp at h
      · split at h
        · simp at h
        · split at h
          · simp at h
          · split at h
            · simp at h
            · split at h
              · simp at h
              · split at h
                · simp at h
                · split at h
                  · exact Option.noConfusion h
                  · simp at h

theorem jsonLoads_obj_core {s : List Char} {o : JsonObj} (h : jsonLoads s = some (.obj o)) :
    parseValue (2 * (trimJWs s).length + 4) (trimJWs s) = some (.obj o, []) := by
  simp only [jsonLoads] at h
  split at h
  · rename_i v heq
    cases h
    exact heq
  · exact Option.noConfusion h

theorem core_shape {s : List Char} {o : JsonObj} (h : jsonLoads s = some (.obj o)) :
    ∃ mid, trimJWs s = '{' :: mid ++ ['}'] := by
  have hp := jsonLoads_obj_core h
  obtain ⟨fuel2, tl, hhead, hobj⟩ := parseValue_obj_shape _ _ _ _ hp
  obtain ⟨pre, hends⟩ := parseObjBody_ends fuel2 tl _ _ hobj
  exact ⟨pre, by rw [hhead, hends]; rfl⟩

theorem isJWs_isPyWs {c : Char} (h : isJWs c = true) : isPyWs c = true := by
  simp only [isJWs, Bool.or_eq_true, decide_eq_true_eq] at h
  simp only [isPyWs, Bool.or_eq_true, decide_eq_true_eq]
  tauto

theorem dropWhile_all_prefix (p : Char → Bool) (a t : List Char)
    (ha : ∀ c ∈ a, p c = true) : (a ++ t).dropWhile p = t.dropWhile p := by
  induction a with
  | nil => rfl
  | cons c a' ih =>
    rw [List.cons_append, List.dropWhile_cons_of_pos (ha c (List.mem_cons_self c a'))]
    exact ih (fun x hx => ha x (List.mem_cons_of_mem c hx))

theorem dropWhile_head_neg {p : Char → Bool} {c : Char} (tl : List Char)
    (hpc : p c = false) : (c :: tl).dropWhile p = c :: tl := by
  rw [List.dropWhile_cons_of_neg]
  simp [hpc]

theorem dropTrailing_append_all (p : Char → Bool) (t b : List Char)
    (hb : ∀ c ∈ b, p c = true) : dropTrailing p (t ++ b) = dropTrailing p t := by
  show ((t ++ b).reverse.dropWhile p).reverse = (t.reverse.dropWhile p).reverse
  rw [List.reverse_append,
    dropWhile_all_prefix p b.reverse t.reverse (fun x hx => hb x (List.mem_reverse.mp hx))]

theorem dropTrailing_last_neg {p : Char → Bool} {c2 : Char} (pre : List Char)
    (hpc : p c2 = false) : dropTrailing p (pre ++ [c2]) = pre ++ [c2] := by
  show ((pre ++ [c2]).reverse.dropWhile p).reverse = pre ++ [c2]
  rw [List.reverse_append]
  show ((c2 :: pre.reverse).dropWhile p).reverse = pre ++ [c2]
  rw [dropWhile_head_neg pre.reverse hpc]
  rw [List.reverse_cons, List.reverse_reverse]

theorem trim_of_shape (p : Char → Bool) (a mid b : List Char)
    (ha : ∀ c ∈ a, p c = true) (hb : ∀ c ∈ b, p c = true)
    (h1 : p '{' = false) (h2 : p '}' = false) :
    dropTrailing p ((a ++ ('{' :: mid ++ ['}']) ++ b).dropWhile p) = '{' :: mid ++ ['}'] := by
  rw [List.append_assoc, dropWhile_all_prefix p a _ ha]
  rw [show ('{' :: mid ++ ['}']) ++ b = '{' :: (mid ++ ['}'] ++ b) by simp]
  rw [dropWhile_head_neg _ h1]
  rw [show '{' :: (mid ++ ['}'] ++ b) = ('{' :: mid ++ ['}']) ++ b by simp]
  rw [dropTrailing_append_all p _ b hb]
  rw [show ('{' :: mid ++ ['}'] : List Char) = ('{' :: mid) ++ ['}'] by simp]
  exact dropTrailing_last_neg _ h2

theorem trim_decomp (s : List Char) :
    ∃ a b, s = a ++ trimJWs s ++ b ∧ (∀ c ∈ a, isJWs c = true) ∧ (∀ c ∈ b, isJWs c = true) := by
  refine ⟨s.takeWhile isJWs, ((s.dropWhile isJWs).reverse.takeWhile isJWs).reverse, ?_, ?_, ?_⟩
  · conv_lhs => rw [← List.takeWhile_append_dropWhile (p := isJWs) (l := s)]
    rw [List.append_assoc]
    congr 1
    conv_lhs => rw [← List.reverse_reverse (s.dropWhile isJWs),
      ← List.takeWhile_append_dropWhile (p := isJWs) (l := (s.dropWhile isJWs).reverse)]
    rw [List.reverse_append]
    rfl
  · intro c hc
    exact List.mem_takeWhile_imp hc
  · intro c hc
    rw [List.mem_reverse] at hc
    exact List.mem_takeWhile_imp hc

theorem pyStrip_of_core {s mid : List Char} (htrim : trimJWs s = '{' :: mid ++ ['}']) :
    pyStrip s = '{' :: mid ++ ['}'] := by
  obtain ⟨a, b, hs, haw, hbw⟩ := trim_decomp s
  rw [htrim] at hs
  show dropTrailing isPyWs (s.dropWhile isPyWs) = _
  rw [hs]
  exact trim_of_shape isPyWs a mid b (fun c hc => isJWs_isPyWs (haw c hc))
    (fun c hc => isJWs_isPyWs (hbw c hc)) (by decide) (by decide)

theorem trimJWs_of_core (mid : List Char) :
    trimJWs ('{' :: mid ++ ['}']) = '{' :: mid ++ ['}'] := by
  show dropTrailing isJWs (('{' :: mid ++ ['}']).dropWhile isJWs) = _
  have h := trim_of_shape isJWs [] mid [] (by simp) (by simp) (by decide) (by decide)
  simpa using h

theorem pyStrip_of_core_fixed (mid : List Char) :
    pyStrip ('{' :: mid ++ ['}']) = '{' :: mid ++ ['}'] := by
  show dropTrailing isPyWs (('{' :: mid ++ ['}']).dropWhile isPyWs) = _
  have h := trim_of_shape isPyWs [] mid [] (by simp) (by simp) (by decide) (by decide)
  simpa using h

theorem containsSub_nil_pat : ∀ l : List Char, containsSub [] l = true
  | [] => rfl
  | c :: rest => by
    show (([] : List Char).isPrefixOf (c :: rest) || containsSub [] rest) = true
    rw [containsSub_nil_pat rest, Bool.or_true]

theorem containsSub_append_left (pat t : List Char) (h : containsSub pat t = true) :
    ∀ x : List Char, containsSub pat (x ++ t) = true
  | [] => h
  | c :: x2 => by
    show (pat.isPrefixOf (c :: (x2 ++ t)) || containsSub pat (x2 ++ t)) = true
    rw [containsSub_append_left pat t h x2, Bool.or_true]

theorem containsSub_append_right (pat : List Char) :
    ∀ (t : List Char), containsSub pat t = true → ∀ y, containsSub pat (t ++ y) = true
  | [], h, y => by
    have hp : pat = [] := by
      cases pat with
      | nil => rfl
      | cons a b => exact absurd h (by simp [containsSub, List.isPrefixOf])
    subst hp
    exact containsSub_nil_pat y
  | c :: rest, h, y => by
    show (pat.isPrefixOf (c :: (rest ++ y)) || containsSub pat (rest ++ y)) = true
    simp only [containsSub, Bool.or_eq_true] at h
    rcases h with h1 | h2
    · have hp : pat <+: (c :: rest) := List.isPrefixOf_iff_prefix.mp h1
      have hp2 : pat <+: c :: (rest ++ y) := by
        rw [← List.cons_append]
        exact hp.trans (List.prefix_append _ _)
      rw [List.isPrefixOf_iff_prefix.mpr hp2, Bool.true_or]
    · rw [containsSub_append_right pat rest h2 y, Bool.or_true]

theorem containsSub_of_append_pat : ∀ (p q u : List Char),
    containsSub (p ++ q) u = true → containsSub p u = true
  | p, q, [], h => by
    have hpq : p ++ q = [] := by
      cases hc : p ++ q with
      | nil => rfl
      | cons a b =>
        rw [hc] at h
        exact absurd h (by simp [containsSub, List.isPrefixOf])
    obtain ⟨hp, hq⟩ := List.append_eq_nil.mp hpq
    subst hp
    rfl
  | p, q, c :: rest, h => by
    show (p.isPrefixOf (c :: rest) || containsSub p rest) = true
    simp only [containsSub, Bool.or_eq_true] at h
    rcases h with h1 | h2
    · have hp : p <+: (c :: rest) :=
        (List.prefix_append p q).trans (List.isPrefixOf_iff_prefix.mp h1)
      rw [List.isPrefixOf_iff_prefix.mpr hp, Bool.true_or]
    · rw [containsSub_of_append_pat p q rest h2, Bool.or_true]

theorem replaceFuel_id (pat rep : List Char) :
    ∀ (fuel : Nat) (t : List Char), containsSub pat t = false →
      replaceFuel pat rep fuel t = t
  | fuel, [], h => by cases fuel <;> rfl
  | 0, c :: rest, h => rfl
  | fuel+1, c :: rest, h => by
    simp only [containsSub, Bool.or_eq_false_iff] at h
    obtain ⟨h1, h2⟩ := h
    show (if pat ≠ [] ∧ pat.isPrefixOf (c :: rest) then _ else _) = _
    rw [if_neg]
    · show c :: replaceFuel pat rep fuel rest = c :: rest
      rw [replaceFuel_id pat rep fuel rest h2]
    · rintro ⟨hne, hpre⟩
      rw [h1] at hpre
      exact Bool.false_ne_true hpre

theorem pyReplace_id {pat t : List Char} (rep : List Char)
    (h : containsSub pat t = false) : pyReplace t pat rep = t :=
  replaceFuel_id pat rep t.length t h

set_option maxHeartbeats 2000000 in
/-- C9 (amended): the repair ladder leaves clean input alone PROVIDED the text
contains no triple-backtick marker: for a string that parses as a single JSON
object and has no code-fence marker substring, extraction returns exactly the
directly-parsed object. -/
theorem C9_amended_clean_extraction (s : List Char) (o : JsonObj)
    (hload : jsonLoads s = some (.obj o)) (hfence : containsSub fence3 s = false) :
    extractJson s = .ok (.obj o) := by
  obtain ⟨mid, hcore⟩ := core_shape hload
  have hstrip : pyStrip s = '{' :: mid ++ ['}'] := pyStrip_of_core hcore
  have hfence_core : containsSub fence3 ('{' :: mid ++ ['}']) = false := by
    cases hcc : containsSub fence3 ('{' :: mid ++ ['}']) with
    | false => rfl
    | true =>
      exfalso
      obtain ⟨a, b, hs, haw, hbw⟩ := trim_decomp s
      rw [hcore] at hs
      have h1 : containsSub fence3 (('{' :: mid ++ ['}']) ++ b) = true :=
        containsSub_append_right _ _ hcc b
      have h2 : containsSub fence3 (a ++ (('{' :: mid ++ ['}']) ++ b)) = true :=
        containsSub_append_left _ _ h1 a
      rw [← List.append_assoc, ← hs] at h2
      rw [h2] at hfence
      exact Bool.noConfusion hfence
  have hfj_core : containsSub fenceJson ('{' :: mid ++ ['}']) = false := by
    cases hcc : containsSub fenceJson ('{' :: mid ++ ['}']) with
    | false => rfl
    | true =>
      exfalso
      have hfj : fenceJson = fence3 ++ ("json".toList) := by decide
      rw [hfj] at hcc
      have h1 := containsSub_of_append_pat fence3 ("json".toList) _ hcc
      rw [h1] at hfence_core
      exact Bool.noConfusion hfence_core
  have hclean : cleanResponse s = '{' :: mid ++ ['}'] := by
    show pyStrip (pyReplace (pyReplace (pyStrip s) fenceJson []) fence3 []) = _
    rw [hstrip, pyReplace_id [] hfj_core, pyReplace_id [] hfence_core]
    exact pyStrip_of_core_fixed mid
  have hfind : listFind ('{' :: mid ++ ['}']) '{' = some 0 := by
    show (('{' :: mid ++ ['}']).findIdx? (· = '{')) = some 0
    simp [List.findIdx?_cons]
  have hrfind : listRfind ('{' :: mid ++ ['}']) '}' =
      some (('{' :: mid ++ ['}']).length - 1) := by
    show (match ('{' :: mid ++ ['}']).reverse.findIdx? (· = '}') with
      | some i => some (('{' :: mid ++ ['}']).length - 1 - i)
      | none => none) = some (('{' :: mid ++ ['}']).length - 1)
    have hrev : ('{' :: mid ++ ['}']).reverse = '}' :: (mid.reverse ++ ['{']) := by simp
    rw [hrev]
    simp [List.findIdx?_cons]
  have hlen : (('{' :: mid ++ ['}']).length - 1) + 1 - 0 = ('{' :: mid ++ ['}']).length := by
    simp
  have hslice : pySlice ('{' :: mid ++ ['}']) 0 ((('{' :: mid ++ ['}']).length - 1) + 1) =
      '{' :: mid ++ ['}'] := by
    show (('{' :: mid ++ ['}']).drop 0).take ((('{' :: mid ++ ['}']).length - 1) + 1 - 0) =
      '{' :: mid ++ ['}']
    rw [List.drop_zero, hlen, List.take_length]
  have hjl : jsonLoads ('{' :: mid ++ ['}']) = some (.obj o) := by
    have hpv := jsonLoads_obj_core hload
    rw [hcore] at hpv
    show (match parseValue (2 * (trimJWs ('{' :: mid ++ ['}'])).length + 4)
        (trimJWs ('{' :: mid ++ ['}'])) with
      | some (v, []) => some v
      | _ => none) = some (.obj o)
    rw [trimJWs_of_core mid, hpv]
  show (match listFind (cleanResponse s) '{', listRfind (cleanResponse s) '}' with
    | some s_, some e_ =>
      match jsonLoads (pySlice (cleanResponse s) s_ (e_ + 1)) with
      | some v => ExtractRes.ok v
      | none =>
        match jsonLoads (fixBrokenJson (pySlice (cleanResponse s) s_ (e_ + 1))) with
        | some v => ExtractRes.ok v
        | none => ExtractRes.decodeFail
    | _, _ => ExtractRes.noJson) = ExtractRes.ok (.obj o)
  rw [hclean, hfind, hrfind]
  show (match jsonLoads (pySlice ('{' :: mid ++ ['}']) 0
      ((('{' :: mid ++ ['}']).length - 1) + 1)) with
    | some v => ExtractRes.ok v
    | none =>
      match jsonLoads (fixBrokenJson (pySlice ('{' :: mid ++ ['}']) 0
          ((('{' :: mid ++ ['}']).length - 1) + 1))) with
      | some v => ExtractRes.ok v
      | none => ExtractRes.decodeFail) = ExtractRes.ok (.obj o)
  rw [hslice, hjl]

/-- C9 counterexample: on a string that IS a single well-formed JSON object,
extraction does not return the directly-parsed object — the code-fence
replace deletes the backticks inside the string value first. -/
theorem C9_counterexample :
    jsonLoads c9Input = some (.obj (JsonObj.ofList [("a".toList, .str fence3)])) ∧
    extractJson c9Input = .ok (.obj (JsonObj.ofList [("a".toList, .str [])])) ∧
    JsonVal.obj (JsonObj.ofList [("a".toList, .str fence3)]) ≠
      JsonVal.obj (JsonObj.ofList [("a".toList, .str [])]) := by
  refine ⟨by decide, by decide, by decide⟩

/-- Witness for the amended C9 at a concrete clean input. -/
theorem C9_amended_clean_extraction_witness :
    (jsonLoads c9Clean = some (.obj (JsonObj.ofList [("a".toList, .num ['1'])])) ∧
     containsSub fence3 c9Clean = false) ∧
    extractJson c9Clean = .ok (.obj (JsonObj.ofList [("a".toList, .num ['1'])])) :=
  ⟨⟨by decide, by decide⟩,
    C9_amended_clean_extraction c9Clean (JsonObj.ofList [("a".toList, .num ['1'])])
      (by decide) (by decide)⟩

end PS
